import Mathlib

/-!
Verification of the yurt-app-manager UnitedDeployment reconciliation core.

Each section shallowly embeds one component of the Go source:

* `SlowStartBatch` (pkg/yurtappmanager/util/tools.go) — the ramping
  concurrency batcher.  Concurrent goroutines within one batch are modelled
  sequentially in index order; the ghost fields `sizes` and `invoked` record
  the executed batch sizes and the invoked indices, which the Go function
  does not return but the claims speak about.
* the pool-set diff and provisioning pass
  (controller/uniteddeployment/uniteddeployment_update.go, `managePools` /
  `managePoolProvision`), with `sets.String` modelled as a deduplicated
  sorted list of names.
* the revision manager (`constructUnitedDeploymentRevisions`,
  `cleanExpiredRevision`, `createControllerRevision`), with the backing
  store modelled as a list of revision objects carrying an ownership flag,
  and `history.EqualRevision` modelled as raw-content equality.
* `PoolControl.UpdatePool` and `DeploymentAdapter.ApplyPoolTemplate`.
-/

/-! ## ConcurrencyBatcher: SlowStartBatch (util/tools.go, lines 42-68) -/

/-- Result of a `SlowStartBatch` run.  `successes` and `err` are the two Go
return values; `sizes` (executed batch sizes, in order) and `invoked`
(indices passed to `fn`, in order) are ghost observations of the run. -/
structure BatchRun where
  successes : Nat
  err : Option String
  sizes : List Nat
  invoked : List Nat
deriving Repr, DecidableEq

/-- Loop of `SlowStartBatch`.  Each iteration runs one batch of `batchSize`
calls at indices `index, index+1, …`; a batch with at least one failure
returns the successes so far together with the first error drained from the
error channel (sequential model: the failing call with the smallest index);
otherwise the loop continues with `remaining -= batchSize` and
`batchSize = min(2*batchSize, remaining)`.  `fuel` bounds the recursion and
is in surplus whenever `remaining < fuel`. -/
def ssbAux (fn : Nat → Option String) : Nat → Nat → Nat → Nat → Nat → BatchRun
  | 0, _, _, _, successes => ⟨successes, none, [], []⟩
  | fuel+1, remaining, batchSize, index, successes =>
    if batchSize = 0 then ⟨successes, none, [], []⟩
    else
      let idxs := (List.range batchSize).map (index + ·)
      let errList := idxs.filterMap fn
      let curSuccesses := batchSize - errList.length
      if errList.length > 0 then
        ⟨successes + curSuccesses, errList.head?, [batchSize], idxs⟩
      else
        let rest := ssbAux fn fuel (remaining - batchSize)
          (min (2*batchSize) (remaining - batchSize)) (index + batchSize) (successes + curSuccesses)
        ⟨rest.successes, rest.err, batchSize :: rest.sizes, idxs ++ rest.invoked⟩

/-- `SlowStartBatch(count, initialBatchSize, fn)` from util/tools.go. -/
def SlowStartBatch (count initialBatchSize : Nat) (fn : Nat → Option String) : BatchRun :=
  ssbAux fn (count+1) count (min count initialBatchSize) 0 0

theorem length_filter_add_length_filterMap (fn : Nat → Option String) :
    ∀ l : List Nat,
      (l.filter (fun j => (fn j).isNone)).length + (l.filterMap fn).length = l.length := by
  intro l
  induction l with
  | nil => simp
  | cons x xs ih =>
    cases h : fn x <;> simp [h, List.filter_cons, List.filterMap_cons] <;> omega

/-- Behavioural invariant of the batcher loop: the invoked indices form a
contiguous range covering whole batches; successes count exactly the
invoked calls that returned nil; the returned error is the first error among
the invoked calls; a nil return means everything ran; a non-nil return means
every index before the final executed batch succeeded and the final executed
batch contains a failure. -/
def SSBInv (fn : Nat → Option String) (index remaining acc : Nat) (R : BatchRun) : Prop :=
  R.invoked = (List.range R.sizes.sum).map (index + ·) ∧
  R.sizes.sum ≤ remaining ∧
  R.successes = acc + (R.invoked.filter (fun j => (fn j).isNone)).length ∧
  R.err = (R.invoked.filterMap fn).head? ∧
  (R.err = none → R.sizes.sum = remaining) ∧
  (∀ e, R.err = some e →
    (∀ j, j < R.sizes.sum - R.sizes.getLast?.getD 0 → fn (index + j) = none) ∧
    (∃ j, R.sizes.sum - R.sizes.getLast?.getD 0 ≤ j ∧ j < R.sizes.sum ∧
      (fn (index + j)).isSome = true))

theorem ssbAux_spec (fn : Nat → Option String) :
    ∀ (fuel remaining batchSize index acc : Nat),
      remaining < fuel → batchSize ≤ remaining → (batchSize = 0 → remaining = 0) →
      SSBInv fn index remaining acc (ssbAux fn fuel remaining batchSize index acc) := by
  intro fuel
  induction fuel with
  | zero => intro remaining _ _ _ h _ _; exact absurd h (Nat.not_lt_zero _)
  | succ fuel ih =>
    intro remaining batchSize index acc hfuel hble hzero
    by_cases hB : batchSize = 0
    · subst hB
      have hrem : remaining = 0 := hzero rfl
      subst hrem
      simp [ssbAux, SSBInv]
    · have hB1 : 1 ≤ batchSize := Nat.one_le_iff_ne_zero.mpr hB
      simp only [ssbAux, if_neg hB]
      set idxs := (List.range batchSize).map (index + ·) with hidxs
      set errList := idxs.filterMap fn with herrList
      have hlenidxs : idxs.length = batchSize := by simp [hidxs]
      by_cases he : errList = []
      · -- fully successful batch: recurse
        have hallnone : ∀ x ∈ idxs, fn x = none := by
          rw [herrList] at he
          exact List.filterMap_eq_nil_iff.mp he
        have hlen0 : ¬ errList.length > 0 := by simp [he]
        rw [if_neg hlen0]
        have hrem' : remaining - batchSize < fuel := by omega
        have hble' : min (2*batchSize) (remaining - batchSize) ≤ remaining - batchSize :=
          Nat.min_le_right _ _
        have hzero' : min (2*batchSize) (remaining - batchSize) = 0 → remaining - batchSize = 0 := by
          intro h
          rcases Nat.min_eq_zero_iff.mp h with h2 | h2
          · omega
          · exact h2
        have IH := ih (remaining - batchSize) (min (2*batchSize) (remaining - batchSize))
          (index + batchSize) (acc + (batchSize - errList.length)) hrem' hble' hzero'
        set rest := ssbAux fn fuel (remaining - batchSize)
          (min (2*batchSize) (remaining - batchSize)) (index + batchSize)
          (acc + (batchSize - errList.length)) with hrest
        obtain ⟨ih1, ih2, ih3, ih4, ih5, ih6⟩ := IH
        have hfilterIdx : idxs.filter (fun j => (fn j).isNone) = idxs := by
          apply List.filter_eq_self.mpr
          intro a ha
          simp [hallnone a ha]
        have hfmIdx : idxs.filterMap fn = [] := he
        have hsum : (batchSize :: rest.sizes).sum = batchSize + rest.sizes.sum := by simp
        refine ⟨?_, ?_, ?_, ?_, ?_, ?_⟩
        · -- invoked
          show idxs ++ rest.invoked = (List.range (batchSize :: rest.sizes).sum).map (index + ·)
          rw [hsum, List.range_add, List.map_append, List.map_map]
          congr 1
          rw [ih1]
          apply List.map_congr_left
          intro a _
          show index + batchSize + a = index + (batchSize + a)
          omega
        · -- sum ≤ remaining
          show (batchSize :: rest.sizes).sum ≤ remaining
          rw [hsum]; omega
        · -- successes
          show rest.successes = acc + ((idxs ++ rest.invoked).filter (fun j => (fn j).isNone)).length
          rw [List.filter_append, List.length_append, hfilterIdx, hlenidxs, ih3]
          omega
        · -- err
          show rest.err = ((idxs ++ rest.invoked).filterMap fn).head?
          rw [List.filterMap_append, hfmIdx, List.nil_append, ih4]
        · -- err none → sum = remaining
          intro hnone
          show (batchSize :: rest.sizes).sum = remaining
          have := ih5 hnone
          rw [hsum]; omega
        · -- err some
          intro e hsome
          obtain ⟨priors, ⟨j', hj'1, hj'2, hj'3⟩⟩ := ih6 e hsome
          have hrestne : rest.sizes ≠ [] := by
            intro hnil
            rw [hnil] at ih1
            simp at ih1
            rw [ih1] at ih4
            simp at ih4
            rw [ih4] at hsome
            exact Option.noConfusion hsome
          obtain ⟨a, t, hat⟩ : ∃ a t, rest.sizes = a :: t := by
            cases hcs : rest.sizes with
            | nil => exact absurd hcs hrestne
            | cons a t => exact ⟨a, t, rfl⟩
          have hlast : (batchSize :: rest.sizes).getLast?.getD 0 = rest.sizes.getLast?.getD 0 := by
            rw [hat, List.getLast?_cons_cons]
          have hLle : rest.sizes.getLast?.getD 0 ≤ rest.sizes.sum := by
            have hmem : rest.sizes.getLast?.getD 0 ∈ rest.sizes := by
              rw [hat]
              rw [List.getLast?_eq_getLast _ (by simp)]
              exact List.getLast_mem _
            exact List.single_le_sum (fun x _ => Nat.zero_le x) _ hmem
          constructor
          · intro j hj
            rw [hsum, hlast] at hj
            by_cases hjB : j < batchSize
            · apply hallnone
              rw [hidxs]
              simp only [List.mem_map, List.mem_range]
              exact ⟨j, hjB, rfl⟩
            · have hjp := priors (j - batchSize) (by omega)
              rwa [show index + batchSize + (j - batchSize) = index + j by omega] at hjp
          · refine ⟨batchSize + j', ?_, ?_, ?_⟩
            · rw [hsum, hlast]; omega
            · rw [hsum]; omega
            · rwa [show index + (batchSize + j') = index + batchSize + j' by omega]
      · -- failing batch: stop
        have hlenpos : errList.length > 0 := by
          cases hcs : errList with
          | nil => exact absurd hcs he
          | cons a t => simp [hcs]
        rw [if_pos hlenpos]
        have hfl := length_filter_add_length_filterMap fn idxs
        refine ⟨?_, ?_, ?_, ?_, ?_, ?_⟩
        · show idxs = (List.range ([batchSize].sum)).map (index + ·)
          simp [hidxs]
        · show [batchSize].sum ≤ remaining
          simpa using hble
        · show acc + (batchSize - errList.length) =
            acc + (idxs.filter (fun j => (fn j).isNone)).length
          rw [← herrList] at hfl
          omega
        · show errList.head? = (idxs.filterMap fn).head?
          rw [herrList]
        · intro hnone
          exfalso
          cases hcs : errList with
          | nil => exact absurd hcs he
          | cons a t =>
            rw [hcs] at hnone
            exact Option.noConfusion hnone
        · intro e _
          constructor
          · intro j hj
            simp at hj
          · have hex : ∃ x ∈ idxs, fn x ≠ none := by
              by_contra hc
              push_neg at hc
              exact he (List.filterMap_eq_nil_iff.mpr hc)
            obtain ⟨x, hx, hfx⟩ := hex
            rw [hidxs] at hx
            simp only [List.mem_map, List.mem_range] at hx
            obtain ⟨j, hjB, rfl⟩ := hx
            refine ⟨j, ?_, ?_, ?_⟩
            · simp
            · simpa using hjB
            · exact Option.isSome_iff_ne_none.mpr hfx

theorem map_zero_add_range (s : Nat) : (List.range s).map (0 + ·) = List.range s := by
  simp

/-- Claim C5 counterexample: with `initialBatchSize = 0` and `count = 1` the
loop guard `batchSize > 0` is false immediately, so no call is ever invoked
and `SlowStartBatch` returns `(0, nil)`, not `(count, nil)`. -/
theorem slowStartBatch_zero_initial_counterexample :
    (SlowStartBatch 1 0 (fun _ => none)).successes = 0 ∧
    (SlowStartBatch 1 0 (fun _ => none)).err = none ∧
    (SlowStartBatch 1 0 (fun _ => none)).successes ≠ 1 := by
  refine ⟨by decide, by decide, by decide⟩

/-- Claim C5 (amended: `initialBatchSize ≥ 1`): when no call fails,
`SlowStartBatch` invokes the function exactly once per index `0 … count-1`,
returns `(count, nil)`, and for `count = 10, initialBatchSize = 1` the
executed batch sizes are `1, 2, 4, 3` in order with 10 successes and a nil
error. -/
theorem slowStartBatch_success_spec :
    (∀ (count initialBatchSize : Nat) (fn : Nat → Option String),
        1 ≤ initialBatchSize → (∀ j, j < count → fn j = none) →
        (SlowStartBatch count initialBatchSize fn).successes = count ∧
        (SlowStartBatch count initialBatchSize fn).err = none ∧
        (SlowStartBatch count initialBatchSize fn).invoked = List.range count) ∧
    (SlowStartBatch 10 1 (fun _ => none)).sizes = [1, 2, 4, 3] ∧
    (SlowStartBatch 10 1 (fun _ => none)).successes = 10 ∧
    (SlowStartBatch 10 1 (fun _ => none)).err = none := by
  refine ⟨?_, by decide, by decide, by decide⟩
  intro count initialBatchSize fn hinit hfn
  unfold SlowStartBatch
  have hzero : min count initialBatchSize = 0 → count = 0 := by
    intro h
    rcases Nat.min_eq_zero_iff.mp h with h2 | h2
    · exact h2
    · omega
  have inv := ssbAux_spec fn (count+1) count (min count initialBatchSize) 0 0
    (Nat.lt_succ_self _) (Nat.min_le_left _ _) hzero
  obtain ⟨i1, i2, i3, i4, i5, _⟩ := inv
  set R := ssbAux fn (count+1) count (min count initialBatchSize) 0 0 with hR
  have hall : ∀ x ∈ R.invoked, fn x = none := by
    intro x hx
    rw [i1] at hx
    simp only [List.mem_map, List.mem_range] at hx
    obtain ⟨j, hj, rfl⟩ := hx
    exact hfn _ (by omega)
  have herr : R.err = none := by
    rw [i4, List.filterMap_eq_nil_iff.mpr hall]
    rfl
  have hsum : R.sizes.sum = count := i5 herr
  have hinv : R.invoked = List.range count := by
    rw [i1, hsum, map_zero_add_range]
  refine ⟨?_, herr, hinv⟩
  rw [i3, List.filter_eq_self.mpr ?_, hinv, List.length_range]
  · omega
  · intro a ha
    simp [hall a ha]

theorem slowStartBatch_success_spec_witness :
    (SlowStartBatch 3 1 (fun _ => none)).successes = 3 :=
  (slowStartBatch_success_spec.1 3 1 (fun _ => none) (by decide) (fun _ _ => rfl)).1

/-- Claim C6: whenever `SlowStartBatch` returns a non-nil error, the invoked
indices form the contiguous range covering every executed batch in full (the
failing batch is completed, and no batch runs after it), the returned success
count is exactly the number of invoked calls that returned nil (all prior
batches plus the successes inside the failing batch), every index before the
final executed batch succeeded, some index of the final executed batch
failed, and the returned error is the first error in invocation order. -/
theorem slowStartBatch_failure_spec (count initialBatchSize : Nat)
    (fn : Nat → Option String) (e : String) (R : BatchRun)
    (hR : R = SlowStartBatch count initialBatchSize fn) (he : R.err = some e) :
    R.invoked = List.range R.sizes.sum ∧
    R.sizes.sum ≤ count ∧
    R.successes = (R.invoked.filter (fun j => (fn j).isNone)).length ∧
    some e = (R.invoked.filterMap fn).head? ∧
    (∀ j, j < R.sizes.sum - R.sizes.getLast?.getD 0 → fn j = none) ∧
    (∃ j, R.sizes.sum - R.sizes.getLast?.getD 0 ≤ j ∧ j < R.sizes.sum ∧
      (fn j).isSome = true) := by
  by_cases hinit : initialBatchSize = 0
  · exfalso
    rw [hR, hinit] at he
    simp [SlowStartBatch, ssbAux] at he
  · have hzero : min count initialBatchSize = 0 → count = 0 := by
      intro h
      rcases Nat.min_eq_zero_iff.mp h with h2 | h2
      · exact h2
      · exact absurd h2 hinit
    have inv := ssbAux_spec fn (count+1) count (min count initialBatchSize) 0 0
      (Nat.lt_succ_self _) (Nat.min_le_left _ _) hzero
    rw [← SlowStartBatch, ← hR] at inv
    obtain ⟨i1, i2, i3, i4, _, i6⟩ := inv
    have hinv : R.invoked = List.range R.sizes.sum := by
      rw [i1, map_zero_add_range]
    obtain ⟨prior, hex⟩ := i6 e he
    refine ⟨hinv, i2, by simpa using i3, by rw [← i4, he], ?_, ?_⟩
    · intro j hj
      have := prior j hj
      rwa [Nat.zero_add] at this
    · obtain ⟨j, hj1, hj2, hj3⟩ := hex
      rw [Nat.zero_add] at hj3
      exact ⟨j, hj1, hj2, hj3⟩

theorem slowStartBatch_failure_spec_witness :
    (SlowStartBatch 10 1 (fun i => if i = 4 then some "boom" else none)).sizes.sum ≤ 10 ∧
    (SlowStartBatch 10 1 (fun i => if i = 4 then some "boom" else none)).successes = 6 :=
  ⟨(slowStartBatch_failure_spec 10 1 (fun i => if i = 4 then some "boom" else none)
      "boom" _ rfl (by decide)).2.1, by decide⟩

/-! ## Pool set diff and provisioning (uniteddeployment_update.go) -/

/-- Byte-wise lexicographic comparison of character lists, used to model the
sorted `List()` of `sets.String`. -/
def charListLe : List Char → List Char → Bool
  | [], _ => true
  | _ :: _, [] => false
  | a :: as, b :: bs =>
    if a.toNat < b.toNat then true
    else if b.toNat < a.toNat then false
    else charListLe as bs

def strLe (a b : String) : Bool := charListLe a.data b.data

/-- A `sets.String` built by inserting the given names, observed through its
`List()` accessor: the deduplicated, sorted member list. -/
def setList (l : List String) : List String :=
  List.insertionSort (fun a b => strLe a b = true) l.dedup

theorem mem_setList (a : String) (l : List String) : a ∈ setList l ↔ a ∈ l := by
  unfold setList
  rw [List.mem_insertionSort, List.mem_dedup]

/-- The observable state of one live pool that the update decision in
`managePools` consults: the revision-hash label of the live object, the live
spec replica count, and the applied-patch annotation content
(`pool.Status.PatchInfo`). -/
structure PoolState where
  revisionHash : String
  replicas : Int
  patchInfo : String

/-- `UnitedDeploymentPatches`: the desired replica count and desired patch
content for one pool of the topology. -/
structure UnitedDeploymentPatches where
  Replicas : Int
  Patch : String

/-- `DeploymentAdapter.IsExpected` (adapter file, lines 176-178): true when
the live object's revision-hash label differs from the target revision
name. -/
def IsExpected (p : PoolState) (revision : String) : Bool :=
  p.revisionHash != revision

/-- The `needUpdate` selection loop of `managePools` (lines 59-66): a pool
name in the expected∩existing list is selected when the revision label
differs, or the live replica count differs from the desired one, or the
applied patch differs from the desired patch. -/
def selectNeedUpdate (interL : List String) (nameToPool : String → PoolState)
    (nextPatches : String → UnitedDeploymentPatches) (revisionName : String) : List String :=
  interL.filter (fun name =>
    IsExpected (nameToPool name) revisionName ||
    (nameToPool name).replicas != (nextPatches name).Replicas ||
    (nameToPool name).patchInfo != (nextPatches name).Patch)

/-- The `creates` list of `managePoolProvision` (lines 114-121): expected
pool names not currently live, in sorted set order. -/
def provisionCreates (expectedNames gotNames : List String) : List String :=
  (setList expectedNames).filter (fun p => !(gotNames.contains p))

/-- The `deletes` list of `managePoolProvision` (lines 124-131): live pool
names not expected, in sorted set order. -/
def provisionDeletes (expectedNames gotNames : List String) : List String :=
  (setList gotNames).filter (fun p => !(expectedNames.contains p))

/-- `expectedPools.Intersection(gotPools)` as returned by
`managePoolProvision` (line 214), observed through `List()`. -/
def provisionIntersection (expectedNames gotNames : List String) : List String :=
  (setList expectedNames).filter (fun p => gotNames.contains p)

/-- Backing-store error classes distinguished by the create phase:
`errors.IsTimeout` matches exactly the `timeout` constructor. -/
inductive KubeErr where
  | timeout (msg : String) : KubeErr
  | other (msg : String) : KubeErr
deriving DecidableEq, Repr

def IsTimeout : KubeErr → Bool
  | .timeout _ => true
  | .other _ => false

/-- The callback `managePoolProvision` passes to `SlowStartBatch` for the
create batch (lines 148-162): a create failure is returned wrapped unless
`errors.IsTimeout` holds for it, in which case nil is returned. -/
def createPoolFn (creates : List String) (createErr : String → Option KubeErr)
    (idx : Nat) : Option String :=
  match createErr (creates.getD idx "") with
  | none => none
  | some e =>
    if IsTimeout e then none
    else some ("fail to create Pool " ++ creates.getD idx "")

/-- Inputs of one `managePoolProvision` pass: the desired topology names,
the live pool names, and the backing-store behaviour of each remote call the
pass makes (create per pool, delete per pool, cross-kind listing per other
workload kind, cross-kind delete per pool). -/
structure ProvisionInput where
  expectedPoolNames : List String
  gotPoolNames : List String
  initialBatchSize : Nat
  createErr : String → Option KubeErr
  deleteErr : String → Option String
  otherPools : List (Except String (List String))
  otherDeleteErr : String → Option String

/-- The cross-kind cleanup loop (lines 192-211): for every workload kind
other than the selected one, a failed listing is collected as an error; a
successful listing marks `cleaned` for each pool found and collects each
failed delete.  Returns `(cleaned, collected errors)`. -/
def cleanupPhase (otherPools : List (Except String (List String)))
    (otherDeleteErr : String → Option String) : Bool × List String :=
  otherPools.foldl
    (fun acc k =>
      match k with
      | .error e => (acc.1, acc.2 ++ ["fail to list Pool of other type: " ++ e])
      | .ok pools =>
          (acc.1 || !pools.isEmpty,
           acc.2 ++ pools.filterMap (fun p =>
             (otherDeleteErr p).map
               (fun e => "fail to delete Pool " ++ p ++ " of other type: " ++ e))))
    (false, [])

/-- Errors contributed by the create batch (lines 137-168): empty when there
is nothing to create or when the batch returned a nil error. -/
def provisionCreateErrs (inp : ProvisionInput) : List String :=
  let creates := provisionCreates inp.expectedPoolNames inp.gotPoolNames
  if creates.isEmpty then []
  else
    match (SlowStartBatch creates.length inp.initialBatchSize
        (createPoolFn creates inp.createErr)).err with
    | none => []
    | some e => [e]

/-- Errors contributed by the sequential delete loop (lines 171-186): one
wrapped error per failing delete, non-fatal per item. -/
def provisionDeleteErrs (inp : ProvisionInput) : List String :=
  (provisionDeletes inp.expectedPoolNames inp.gotPoolNames).filterMap (fun p =>
    (inp.deleteErr p).map (fun e => "fail to delete Pool " ++ p ++ ": " ++ e))

/-- The three return values of `managePoolProvision` (line 214): the
expected∩existing name set, the "something changed this pass" flag, and the
aggregated error list. -/
structure ProvisionResult where
  interNames : List String
  changed : Bool
  errs : List String

def managePoolProvision (inp : ProvisionInput) : ProvisionResult :=
  let creates := provisionCreates inp.expectedPoolNames inp.gotPoolNames
  let deletes := provisionDeletes inp.expectedPoolNames inp.gotPoolNames
  let cleanup := cleanupPhase inp.otherPools inp.otherDeleteErr
  { interNames := provisionIntersection inp.expectedPoolNames inp.gotPoolNames
    changed := !creates.isEmpty || !deletes.isEmpty || cleanup.1
    errs := provisionCreateErrs inp ++ provisionDeleteErrs inp ++ cleanup.2 }

/-- Claim C2: the pool-set diff computes `toCreate = expected − existing`
and `toDelete = existing − expected`; a pool of `expected ∩ existing` is
selected for update exactly when its revision-hash label differs from the
target revision name, or its live replica count differs from the desired
one, or its applied patch differs from the desired patch; and
`expected = {A,B,C}`, `existing = {B,C,D}` yields `toCreate = {A}`,
`toDelete = {D}`, `toUpdate ⊆ {B,C}`. -/
theorem pool_diff_spec :
    (∀ expectedNames gotNames : List String,
        (provisionCreates expectedNames gotNames).toFinset
            = expectedNames.toFinset \ gotNames.toFinset ∧
        (provisionDeletes expectedNames gotNames).toFinset
            = gotNames.toFinset \ expectedNames.toFinset ∧
        (provisionIntersection expectedNames gotNames).toFinset
            = expectedNames.toFinset ∩ gotNames.toFinset) ∧
    (∀ interL nameToPool nextPatches revisionName name,
        name ∈ selectNeedUpdate interL nameToPool nextPatches revisionName ↔
          name ∈ interL ∧
            ((nameToPool name).revisionHash ≠ revisionName ∨
             (nameToPool name).replicas ≠ (nextPatches name).Replicas ∨
             (nameToPool name).patchInfo ≠ (nextPatches name).Patch)) ∧
    (∀ interL nameToPool nextPatches revisionName,
        selectNeedUpdate interL nameToPool nextPatches revisionName ⊆ interL) ∧
    provisionCreates ["A", "B", "C"] ["B", "C", "D"] = ["A"] ∧
    provisionDeletes ["A", "B", "C"] ["B", "C", "D"] = ["D"] ∧
    provisionIntersection ["A", "B", "C"] ["B", "C", "D"] = ["B", "C"] := by
  refine ⟨?_, ?_, ?_, by decide, by decide, by decide⟩
  · intro expectedNames gotNames
    refine ⟨?_, ?_, ?_⟩ <;>
      · ext a
        simp [provisionCreates, provisionDeletes, provisionIntersection,
          List.mem_filter, mem_setList]
  · intro interL nameToPool nextPatches revisionName name
    unfold selectNeedUpdate IsExpected
    rw [List.mem_filter]
    simp [or_assoc]
  · intro interL nameToPool nextPatches revisionName a ha
    exact (List.mem_filter.mp ha).1

theorem pool_diff_spec_witness :
    "B" ∈ selectNeedUpdate ["B", "C"]
        (fun _ => ⟨"rev-old", 3, ""⟩) (fun _ => ⟨3, ""⟩) "rev-new" :=
  (pool_diff_spec.2.1 ["B", "C"] (fun _ => ⟨"rev-old", 3, ""⟩) (fun _ => ⟨3, ""⟩)
    "rev-new" "B").mpr ⟨by decide, Or.inl (by decide)⟩

theorem ssbAux_err_none (fn : Nat → Option String) (h : ∀ j, fn j = none) :
    ∀ fuel remaining batchSize index acc,
      (ssbAux fn fuel remaining batchSize index acc).err = none := by
  intro fuel
  induction fuel with
  | zero => intro _ _ _ _; rfl
  | succ fuel ih =>
    intro remaining batchSize index acc
    by_cases hB : batchSize = 0
    · simp [ssbAux, hB]
    · simp only [ssbAux, if_neg hB]
      have hnil : List.filterMap fn ((List.range batchSize).map (index + ·)) = [] :=
        List.filterMap_eq_nil_iff.mpr (fun a _ => h a)
      rw [hnil]
      simpa using ih _ _ _ _

theorem mem_provisionCreates (p : String) (expectedNames gotNames : List String) :
    p ∈ provisionCreates expectedNames gotNames ↔ p ∈ expectedNames ∧ p ∉ gotNames := by
  simp [provisionCreates, List.mem_filter, mem_setList]

theorem mem_provisionDeletes (p : String) (expectedNames gotNames : List String) :
    p ∈ provisionDeletes expectedNames gotNames ↔ p ∈ gotNames ∧ p ∉ expectedNames := by
  simp [provisionDeletes, List.mem_filter, mem_setList]

/-- Claim C9: a timeout-class failure of a pool create is benign — the batch
callback returns nil for it, so it is not a failure of that create
operation; when every create failure in the pass is timeout-class, the
create batch runs to completion with a nil error and contributes nothing to
the aggregate error; and every non-timeout create failure is surfaced by the
callback. -/
theorem create_timeout_benign :
    (∀ creates createErr idx,
        createPoolFn creates createErr idx = none ↔
          (createErr (creates.getD idx "") = none ∨
           ∃ s, createErr (creates.getD idx "") = some (KubeErr.timeout s))) ∧
    (∀ creates createErr idx s,
        createErr (creates.getD idx "") = some (KubeErr.other s) →
        createPoolFn creates createErr idx
          = some ("fail to create Pool " ++ creates.getD idx "")) ∧
    (∀ inp : ProvisionInput,
        (∀ p, inp.createErr p = none ∨ ∃ s, inp.createErr p = some (KubeErr.timeout s)) →
        provisionCreateErrs inp = [] ∧
        (SlowStartBatch (provisionCreates inp.expectedPoolNames inp.gotPoolNames).length
            inp.initialBatchSize
            (createPoolFn (provisionCreates inp.expectedPoolNames inp.gotPoolNames)
              inp.createErr)).err = none) := by
  have hbenign : ∀ (creates : List String) (ce : String → Option KubeErr),
      (∀ p, ce p = none ∨ ∃ s, ce p = some (KubeErr.timeout s)) →
      ∀ j, createPoolFn creates ce j = none := by
    intro creates ce hce j
    unfold createPoolFn
    rcases hce (creates.getD j "") with h | ⟨s, h⟩ <;> rw [h]
    all_goals rfl
  refine ⟨?_, ?_, ?_⟩
  · intro creates createErr idx
    unfold createPoolFn
    cases hc : createErr (creates.getD idx "") with
    | none => simp
    | some e =>
      cases e with
      | timeout s => simp [IsTimeout, hc]
      | other s => simp [IsTimeout, hc]
  · intro creates createErr idx s h
    unfold createPoolFn
    rw [h]
    rfl
  · intro inp hce
    have herr : (SlowStartBatch (provisionCreates inp.expectedPoolNames inp.gotPoolNames).length
        inp.initialBatchSize
        (createPoolFn (provisionCreates inp.expectedPoolNames inp.gotPoolNames)
          inp.createErr)).err = none :=
      ssbAux_err_none _ (hbenign _ _ hce) _ _ _ _ _
    refine ⟨?_, herr⟩
    unfold provisionCreateErrs
    by_cases hempty : (provisionCreates inp.expectedPoolNames inp.gotPoolNames).isEmpty
    · simp [hempty]
    · simp [hempty, herr]

theorem create_timeout_benign_witness :
    provisionCreateErrs
      { expectedPoolNames := ["A"], gotPoolNames := [], initialBatchSize := 1,
        createErr := fun _ => some (KubeErr.timeout "t"), deleteErr := fun _ => none,
        otherPools := [], otherDeleteErr := fun _ => none } = [] :=
  (create_timeout_benign.2.2
    { expectedPoolNames := ["A"], gotPoolNames := [], initialBatchSize := 1,
      createErr := fun _ => some (KubeErr.timeout "t"), deleteErr := fun _ => none,
      otherPools := [], otherDeleteErr := fun _ => none }
    (fun _ => Or.inr ⟨"t", rfl⟩)).1

/-- True when some other-kind listing succeeded and found at least one pool:
the condition under which the cleanup loop body sets `cleaned = true`. -/
def foundOtherPools (otherPools : List (Except String (List String))) : Bool :=
  otherPools.any (fun k =>
    match k with
    | .error _ => false
    | .ok pools => !pools.isEmpty)

theorem cleanupPhase_foldl_fst (f : String → Option String) :
    ∀ (ks : List (Except String (List String))) (b : Bool) (es : List String),
      (List.foldl
        (fun acc k =>
          match k with
          | .error e => (acc.1, acc.2 ++ ["fail to list Pool of other type: " ++ e])
          | .ok pools =>
              (acc.1 || !pools.isEmpty,
               acc.2 ++ pools.filterMap (fun p =>
                 (f p).map
                   (fun e => "fail to delete Pool " ++ p ++ " of other type: " ++ e))))
        (b, es) ks).1 = (b || foundOtherPools ks) := by
  intro ks
  induction ks with
  | nil => intro b es; simp [foundOtherPools]
  | cons k ks ih =>
    intro b es
    cases k with
    | error e =>
      rw [List.foldl_cons]
      show (List.foldl _ (b, es ++ ["fail to list Pool of other type: " ++ e]) ks).1 = _
      rw [ih]
      simp [foundOtherPools, List.any_cons]
    | ok pools =>
      rw [List.foldl_cons]
      show (List.foldl _ (b || !pools.isEmpty,
        es ++ pools.filterMap (fun p =>
          (f p).map
            (fun e => "fail to delete Pool " ++ p ++ " of other type: " ++ e))) ks).1 = _
      rw [ih]
      simp [foundOtherPools, List.any_cons, Bool.or_assoc]

theorem cleanupPhase_found (otherPools : List (Except String (List String)))
    (f : String → Option String) :
    (cleanupPhase otherPools f).1 = foundOtherPools otherPools := by
  unfold cleanupPhase
  rw [cleanupPhase_foldl_fst]
  simp

theorem foundOtherPools_iff (ks : List (Except String (List String))) :
    foundOtherPools ks = true ↔ ∃ pools, Except.ok pools ∈ ks ∧ pools ≠ [] := by
  unfold foundOtherPools
  rw [List.any_eq_true]
  constructor
  · rintro ⟨x, hx, hpred⟩
    cases x with
    | error e => simp at hpred
    | ok pools =>
      refine ⟨pools, hx, ?_⟩
      simp only [Bool.not_eq_true'] at hpred
      intro hnil
      rw [hnil] at hpred
      simp at hpred
  · rintro ⟨pools, hmem, hne⟩
    refine ⟨.ok pools, hmem, ?_⟩
    simp only [Bool.not_eq_true']
    cases pools with
    | nil => exact absurd rfl hne
    | cons a t => rfl

theorem managePoolProvision_changed_eq (inp : ProvisionInput) :
    (managePoolProvision inp).changed
      = (!(provisionCreates inp.expectedPoolNames inp.gotPoolNames).isEmpty
         || !(provisionDeletes inp.expectedPoolNames inp.gotPoolNames).isEmpty
         || foundOtherPools inp.otherPools) := by
  show (!(provisionCreates inp.expectedPoolNames inp.gotPoolNames).isEmpty
     || !(provisionDeletes inp.expectedPoolNames inp.gotPoolNames).isEmpty
     || (cleanupPhase inp.otherPools inp.otherDeleteErr).1) = _
  rw [cleanupPhase_found]

theorem not_isEmpty_iff_exists_mem (l : List String) :
    (!l.isEmpty) = true ↔ ∃ p, p ∈ l := by
  cases l with
  | nil => simp
  | cons a t =>
    constructor
    · intro _
      exact ⟨a, List.mem_cons_self a t⟩
    · intro _
      rfl

/-- Claim C10: the "something changed this pass" flag returned by
`managePoolProvision` reflects attempted work, not successful work: it is
true exactly when the set of pools to create is non-empty, or the set of
pools to delete is non-empty, or some pool of another workload kind was
found during cross-kind cleanup — and it does not depend on the outcome of
any create or delete call. -/
theorem provision_changed_flag (inp : ProvisionInput) :
    ((managePoolProvision inp).changed = true ↔
      ((∃ p, p ∈ inp.expectedPoolNames ∧ p ∉ inp.gotPoolNames) ∨
       (∃ p, p ∈ inp.gotPoolNames ∧ p ∉ inp.expectedPoolNames) ∨
       (∃ pools, Except.ok pools ∈ inp.otherPools ∧ pools ≠ []))) ∧
    (∀ ce de ode,
        (managePoolProvision
          { inp with createErr := ce, deleteErr := de, otherDeleteErr := ode }).changed
          = (managePoolProvision inp).changed) := by
  constructor
  · rw [managePoolProvision_changed_eq, Bool.or_eq_true, Bool.or_eq_true]
    have hA : (!(provisionCreates inp.expectedPoolNames inp.gotPoolNames).isEmpty) = true
        ↔ ∃ p, p ∈ inp.expectedPoolNames ∧ p ∉ inp.gotPoolNames :=
      (not_isEmpty_iff_exists_mem _).trans
        (exists_congr fun p => mem_provisionCreates p _ _)
    have hB : (!(provisionDeletes inp.expectedPoolNames inp.gotPoolNames).isEmpty) = true
        ↔ ∃ p, p ∈ inp.gotPoolNames ∧ p ∉ inp.expectedPoolNames :=
      (not_isEmpty_iff_exists_mem _).trans
        (exists_congr fun p => mem_provisionDeletes p _ _)
    exact (or_congr (or_congr hA hB) (foundOtherPools_iff _)).trans or_assoc
  · intro ce de ode
    rw [managePoolProvision_changed_eq, managePoolProvision_changed_eq]

theorem provision_changed_flag_witness :
    (managePoolProvision
      { expectedPoolNames := ["A"], gotPoolNames := ["B"], initialBatchSize := 1,
        createErr := fun _ => some (KubeErr.other "boom"),
        deleteErr := fun _ => some "boom",
        otherPools := [], otherDeleteErr := fun _ => none }).changed = true :=
  (provision_changed_flag _).1.mpr (Or.inl ⟨"A", by decide, by decide⟩)

/-! ## Revision manager (revision file of the source, part_001 lines 44-305) -/

/-- A `ControllerRevision` object in the backing store: name, sequence
number (`Revision`), creation timestamp, raw content (`Data.Raw`), and
whether it is owned by the reconciled resource — `controlledHistories`
returns exactly the owned ones, and only those participate in sorting,
pruning and deduplication. -/
structure Revision where
  name : String
  revision : Int
  creationTimestamp : Nat
  data : String
  owned : Bool
deriving DecidableEq, Repr

/-- Comparison used by `history.SortControllerRevisions`: by sequence
number, then creation timestamp, then name. -/
def revLE (a b : Revision) : Prop :=
  a.revision < b.revision ∨
    (a.revision = b.revision ∧
      (a.creationTimestamp < b.creationTimestamp ∨
        (a.creationTimestamp = b.creationTimestamp ∧ strLe a.name b.name = true)))

instance : DecidableRel revLE := fun a b => by
  unfold revLE
  infer_instance

/-- `cleanExpiredRevision` (lines 171-198) on an already sorted owned
history: when the count exceeds the retention limit, every entry among the
first `count - limit` whose name differs from the recorded current-revision
name is deleted from the store, and the returned history unconditionally
drops the first `count - limit` entries.  Returns
`(deleted entries, returned history)`. -/
def cleanExpiredRevision (limit : Nat) (currentName : String)
    (sortedRevisions : List Revision) : List Revision × List Revision :=
  if sortedRevisions.length ≤ limit then ([], sortedRevisions)
  else
    let exceedNum := sortedRevisions.length - limit
    ((sortedRevisions.take exceedNum).filter (fun r => !(r.name == currentName)),
     sortedRevisions.drop exceedNum)

/-- The stored owned history after `cleanExpiredRevision` ran: the input
minus the entries it deleted (deletion is by object name). -/
def storeAfterCleanExpired (limit : Nat) (currentName : String)
    (sorted : List Revision) : List Revision :=
  let deletedNames := (cleanExpiredRevision limit currentName sorted).1.map (·.name)
  sorted.filter (fun r => !(deletedNames.contains r.name))

/-- Claim C1 counterexample: three owned revisions sorted by sequence, limit
2, and the current revision `r1` is the oldest.  The deletion loop protects
`r1`, so nothing at all is deleted — the store keeps 3 > 2 revisions — while
the returned history is unconditionally `sorted[1:]`, which drops `r1`. -/
theorem cleanExpiredRevision_counterexample :
    List.Sorted revLE
      [⟨"r1", 1, 1, "d1", true⟩, ⟨"r2", 2, 2, "d2", true⟩, ⟨"r3", 3, 3, "d3", true⟩] ∧
    "r1" ∈ ([⟨"r1", 1, 1, "d1", true⟩, ⟨"r2", 2, 2, "d2", true⟩,
        (⟨"r3", 3, 3, "d3", true⟩ : Revision)].map (·.name)) ∧
    2 < ([⟨"r1", 1, 1, "d1", true⟩, ⟨"r2", 2, 2, "d2", true⟩,
        (⟨"r3", 3, 3, "d3", true⟩ : Revision)]).length ∧
    ¬ ((storeAfterCleanExpired 2 "r1"
          [⟨"r1", 1, 1, "d1", true⟩, ⟨"r2", 2, 2, "d2", true⟩,
           ⟨"r3", 3, 3, "d3", true⟩]).length ≤ 2 ∧
       "r1" ∈ ((cleanExpiredRevision 2 "r1"
          [⟨"r1", 1, 1, "d1", true⟩, ⟨"r2", 2, 2, "d2", true⟩,
           ⟨"r3", 3, 3, "d3", true⟩]).2.map (·.name))) := by
  refine ⟨?_, by decide, by decide, by decide⟩
  unfold List.Sorted
  decide

theorem filter_beq_of_nodup_mem {l : List String} {a : String} (h : l.Nodup) (hm : a ∈ l) :
    l.filter (fun n => n == a) = [a] := by
  induction l with
  | nil => exact absurd hm (List.not_mem_nil a)
  | cons b t ih =>
    rcases List.mem_cons.mp hm with rfl | hmt
    · rw [List.filter_cons_of_pos (by simp)]
      have hnotin : a ∉ t := (List.nodup_cons.mp h).1
      have ht : t.filter (fun n => n == a) = [] := by
        apply List.filter_eq_nil_iff.mpr
        intro n hn
        simp only [beq_iff_eq]
        intro hna
        exact hnotin (hna ▸ hn)
      rw [ht]
    · have hne : b ≠ a := by
        rintro rfl
        exact (List.nodup_cons.mp h).1 hmt
      rw [List.filter_cons_of_neg (by simp [hne])]
      exact ih (List.nodup_cons.mp h).2 hmt

theorem contains_iff_mem (l : List String) (a : String) : l.contains a = true ↔ a ∈ l :=
  List.elem_iff

theorem contains_eq_false_iff_not_mem (l : List String) (a : String) :
    (l.contains a = false) ↔ a ∉ l := by
  constructor
  · intro h hm
    rw [(contains_iff_mem l a).mpr hm] at h
    exact Bool.noConfusion h
  · intro h
    cases hc : l.contains a
    · rfl
    · exact absurd ((contains_iff_mem l a).mp hc) h

/-- Claim C1 (amended): on a sorted owned history with pairwise-distinct
names whose length exceeds the retention limit, `cleanExpiredRevision` never
deletes the revision named by the recorded current-revision name, so that
revision always survives in the store; when the current revision is not
among the `count − limit` oldest entries, the stored count drops to exactly
the limit and the returned history retains the current revision; but when
the current revision is among the `count − limit` oldest entries, the store
is left with `limit + 1` revisions (the claimed bound `≤ limit` fails) and
the returned history omits the current revision. -/
theorem cleanExpiredRevision_spec (limit : Nat) (currentName : String)
    (sorted : List Revision)
    (_hsorted : List.Sorted revLE sorted)
    (hnodup : (sorted.map (·.name)).Nodup)
    (hmem : currentName ∈ sorted.map (·.name))
    (hlen : limit < sorted.length) :
    (∀ r ∈ (cleanExpiredRevision limit currentName sorted).1, r.name ≠ currentName) ∧
    currentName ∈ (storeAfterCleanExpired limit currentName sorted).map (·.name) ∧
    (currentName ∉ ((sorted.take (sorted.length - limit)).map (·.name)) →
      (storeAfterCleanExpired limit currentName sorted).length = limit ∧
      currentName ∈ ((cleanExpiredRevision limit currentName sorted).2.map (·.name))) ∧
    (currentName ∈ ((sorted.take (sorted.length - limit)).map (·.name)) →
      (storeAfterCleanExpired limit currentName sorted).length = limit + 1 ∧
      currentName ∉ ((cleanExpiredRevision limit currentName sorted).2.map (·.name))) := by
  have hnotle : ¬ sorted.length ≤ limit := by omega
  set exceedNum := sorted.length - limit with hexceed
  have hclean : cleanExpiredRevision limit currentName sorted
      = ((sorted.take exceedNum).filter (fun r => !(r.name == currentName)),
         sorted.drop exceedNum) := by
    unfold cleanExpiredRevision
    rw [if_neg hnotle]
  have hdel : ∀ r ∈ (cleanExpiredRevision limit currentName sorted).1,
      r.name ≠ currentName := by
    intro r hr
    rw [hclean] at hr
    have := (List.mem_filter.mp hr).2
    simpa using this
  -- name decomposition: sorted = take ++ drop, with disjoint name lists
  have hsplit : sorted.take exceedNum ++ sorted.drop exceedNum = sorted :=
    List.take_append_drop _ _
  have hnamesplit : (sorted.take exceedNum).map (·.name) ++ (sorted.drop exceedNum).map (·.name)
      = sorted.map (·.name) := by
    rw [← List.map_append, hsplit]
  have hnamesNodup : ((sorted.take exceedNum).map (·.name)
      ++ (sorted.drop exceedNum).map (·.name)).Nodup := by
    rw [hnamesplit]; exact hnodup
  have hdisj : ∀ n, n ∈ (sorted.take exceedNum).map (·.name) →
      n ∈ (sorted.drop exceedNum).map (·.name) → False := by
    intro n h1 h2
    exact (List.nodup_append.mp hnamesNodup).2.2 h1 h2
  refine ⟨hdel, ?_, ?_, ?_⟩
  · -- the current revision always survives in the store
    obtain ⟨rc, hrc, hrcname⟩ := List.mem_map.mp hmem
    apply List.mem_map.mpr
    refine ⟨rc, ?_, hrcname⟩
    unfold storeAfterCleanExpired
    apply List.mem_filter.mpr
    refine ⟨hrc, ?_⟩
    rw [Bool.not_eq_true', contains_eq_false_iff_not_mem]
    intro hin
    obtain ⟨d, hd, hdname⟩ := List.mem_map.mp hin
    exact hdel d hd (hdname.trans hrcname)
  · -- current revision not among the over-budget prefix
    intro hnotin
    have hfilterall : (sorted.take exceedNum).filter (fun r => !(r.name == currentName))
        = sorted.take exceedNum := by
      apply List.filter_eq_self.mpr
      intro r hr
      simp only [Bool.not_eq_true', beq_eq_false_iff_ne, ne_eq]
      intro hrname
      exact hnotin (List.mem_map.mpr ⟨r, hr, hrname⟩)
    have hdelnames : ((cleanExpiredRevision limit currentName sorted).1.map (·.name))
        = (sorted.take exceedNum).map (·.name) := by
      rw [hclean]
      simp only
      rw [hfilterall]
    constructor
    · -- store count = limit
      unfold storeAfterCleanExpired
      rw [hdelnames]
      set tn := (sorted.take exceedNum).map (·.name) with htn
      have hsplitF : sorted.filter (fun r => !(tn.contains r.name))
          = sorted.drop exceedNum := by
        conv_lhs => rw [← hsplit]
        rw [List.filter_append]
        have h1 : (sorted.take exceedNum).filter
            (fun r => !(tn.contains r.name)) = [] := by
          apply List.filter_eq_nil_iff.mpr
          intro r hr
          rw [Bool.not_eq_true', contains_eq_false_iff_not_mem, htn]
          exact not_not_intro (List.mem_map.mpr ⟨r, hr, rfl⟩)
        have h2 : (sorted.drop exceedNum).filter
            (fun r => !(tn.contains r.name))
            = sorted.drop exceedNum := by
          apply List.filter_eq_self.mpr
          intro r hr
          rw [Bool.not_eq_true', contains_eq_false_iff_not_mem, htn]
          intro hin
          exact hdisj r.name hin (List.mem_map.mpr ⟨r, hr, rfl⟩)
        rw [h1, h2, List.nil_append]
      rw [hsplitF, List.length_drop]
      omega
    · -- current revision is in the returned history
      rw [hclean]
      simp only
      rcases (List.mem_append.mp (hnamesplit ▸ hmem)) with h | h
      · exact absurd h hnotin
      · exact h
  · -- current revision among the over-budget prefix
    intro hin
    have hdelnames : ((cleanExpiredRevision limit currentName sorted).1.map (·.name))
        = ((sorted.take exceedNum).map (·.name)).filter (fun n => !(n == currentName)) := by
      rw [hclean]
      simp only
      rw [List.filter_map]
      rfl
    constructor
    · unfold storeAfterCleanExpired
      rw [hdelnames]
      set deletedNames := ((sorted.take exceedNum).map (·.name)).filter
        (fun n => !(n == currentName)) with hdn
      have hkeep : sorted.filter (fun r => !(deletedNames.contains r.name))
          = (sorted.take exceedNum).filter (fun r => r.name == currentName)
            ++ sorted.drop exceedNum := by
        conv_lhs => rw [← hsplit]
        rw [List.filter_append]
        congr 1
        · -- on the prefix: kept iff name = currentName
          apply List.filter_congr
          intro r hr
          cases hrn : (r.name == currentName) with
          | true =>
            rw [Bool.not_eq_true', contains_eq_false_iff_not_mem]
            intro hin
            have := (List.mem_filter.mp hin).2
            rw [hrn] at this
            exact Bool.noConfusion this
          | false =>
            rw [Bool.not_eq_false']
            rw [contains_iff_mem]
            apply List.mem_filter.mpr
            refine ⟨List.mem_map.mpr ⟨r, hr, rfl⟩, ?_⟩
            rw [hrn]
            rfl
        · -- on the suffix: everything kept
          apply List.filter_eq_self.mpr
          intro r hr
          rw [Bool.not_eq_true', contains_eq_false_iff_not_mem]
          intro hc
          have := (List.mem_filter.mp hc).1
          exact hdisj r.name this (List.mem_map.mpr ⟨r, hr, rfl⟩)
      rw [hkeep, List.length_append, List.length_drop]
      have hone : ((sorted.take exceedNum).filter (fun r => r.name == currentName)).length
          = 1 := by
        have hmapcomm : ((sorted.take exceedNum).filter (fun r => r.name == currentName)).map
            (·.name) = ((sorted.take exceedNum).map (·.name)).filter
              (fun n => n == currentName) := by
          rw [List.filter_map]
          rfl
        have htnodup : ((sorted.take exceedNum).map (·.name)).Nodup :=
          (List.nodup_append.mp hnamesNodup).1
        have := filter_beq_of_nodup_mem htnodup hin
        have hlen1 : (((sorted.take exceedNum).map (·.name)).filter
            (fun n => n == currentName)).length = 1 := by rw [this]; rfl
        calc ((sorted.take exceedNum).filter (fun r => r.name == currentName)).length
            = (((sorted.take exceedNum).filter (fun r => r.name == currentName)).map
                (·.name)).length := by rw [List.length_map]
          _ = 1 := by rw [hmapcomm, hlen1]
      rw [hone]
      omega
    · rw [hclean]
      simp only
      intro hc
      exact hdisj currentName hin hc

theorem cleanExpiredRevision_spec_witness :
    "r3" ∈ ((storeAfterCleanExpired 2 "r3"
      [⟨"r1", 1, 1, "d1", true⟩, ⟨"r2", 2, 2, "d2", true⟩,
       ⟨"r3", 3, 3, "d3", true⟩]).map (·.name)) :=
  (cleanExpiredRevision_spec 2 "r3"
    [⟨"r1", 1, 1, "d1", true⟩, ⟨"r2", 2, 2, "d2", true⟩, ⟨"r3", 3, 3, "d3", true⟩]
    (by decide) (by decide) (by decide) (by decide)).2.1

/-- `createControllerRevision` (lines 201-230): compute the revision name
from the candidate's content and the collision counter and attempt the
create; on AlreadyExists read the colliding object back — if its content is
byte-identical return it unchanged, otherwise increment the collision
counter and retry with the fresh name.  Create fails with AlreadyExists
exactly when the store already holds an object of that name.  The retry
loop is unbounded in the original; `fuel` bounds it here, `none` meaning the
fuel ran out.  On success the result is
`(returned revision, new store, final collision count, created names)`. -/
def createControllerRevision (nameOf : String → Nat → String) (cand : Revision)
    (store : List Revision) :
    Nat → Nat → Option (Revision × List Revision × Nat × List String)
  | _, 0 => none
  | cc, fuel+1 =>
    let nm := nameOf cand.data cc
    let clone := { cand with name := nm }
    match store.find? (fun r => r.name == nm) with
    | some ex =>
      if ex.data == clone.data then some (ex, store, cc, [])
      else createControllerRevision nameOf cand store (cc+1) fuel
    | none => some (clone, store ++ [clone], cc, [nm])

theorem createControllerRevision_cc_mono (nameOf : String → Nat → String)
    (cand : Revision) (store : List Revision) :
    ∀ (fuel cc : Nat) (ret : Revision) (st : List Revision) (ccR : Nat)
      (created : List String),
      createControllerRevision nameOf cand store cc fuel = some (ret, st, ccR, created) →
      cc ≤ ccR := by
  intro fuel
  induction fuel with
  | zero => intro cc ret st ccR created h; exact Option.noConfusion h
  | succ fuel ih =>
    intro cc ret st ccR created h
    simp only [createControllerRevision] at h
    cases hf : store.find? (fun r => r.name == nameOf cand.data cc) with
    | some ex =>
      rw [hf] at h
      dsimp only at h
      by_cases hd : (ex.data == cand.data)
      · rw [if_pos hd] at h
        simp only [Option.some.injEq, Prod.mk.injEq] at h
        omega
      · rw [if_neg hd] at h
        have := ih (cc+1) ret st ccR created h
        omega
    | none =>
      rw [hf] at h
      dsimp only at h
      simp only [Option.some.injEq, Prod.mk.injEq] at h
      omega

/-- Claim C4: on a collision of the freshly computed name with an existing
object, `createControllerRevision` returns the existing object unchanged
with the collision counter untouched when the contents are byte-identical;
when the contents differ it retries with the collision counter incremented
by one (so the next name is computed from the incremented counter), and any
successful outcome of the run carries a strictly larger collision count. -/
theorem createControllerRevision_collision (nameOf : String → Nat → String)
    (cand ex : Revision) (store : List Revision) (cc fuel : Nat)
    (hfind : store.find? (fun r => r.name == nameOf cand.data cc) = some ex) :
    (ex.data = cand.data →
      createControllerRevision nameOf cand store cc (fuel+1) = some (ex, store, cc, [])) ∧
    (ex.data ≠ cand.data →
      createControllerRevision nameOf cand store cc (fuel+1)
        = createControllerRevision nameOf cand store (cc+1) fuel) ∧
    (∀ ret st ccR created, ex.data ≠ cand.data →
      createControllerRevision nameOf cand store cc (fuel+1)
          = some (ret, st, ccR, created) →
      cc < ccR) := by
  refine ⟨?_, ?_, ?_⟩
  · intro hdata
    simp only [createControllerRevision]
    rw [hfind]
    dsimp only
    rw [if_pos (by simp [hdata])]
  · intro hdata
    simp only [createControllerRevision]
    rw [hfind]
    dsimp only
    rw [if_neg (by simp [hdata])]
  · intro ret st ccR created hdata h
    have heq : createControllerRevision nameOf cand store cc (fuel+1)
        = createControllerRevision nameOf cand store (cc+1) fuel := by
      simp only [createControllerRevision]
      rw [hfind]
      dsimp only
      rw [if_neg (by simp [hdata])]
    rw [heq] at h
    have := createControllerRevision_cc_mono nameOf cand store fuel (cc+1) ret st ccR created h
    omega

theorem createControllerRevision_collision_witness :
    createControllerRevision (fun d cc => d ++ "-" ++ toString cc)
      ⟨"", 4, 9, "tpl", true⟩ [⟨"tpl-0", 1, 1, "tpl", true⟩] 0 1
      = some (⟨"tpl-0", 1, 1, "tpl", true⟩, [⟨"tpl-0", 1, 1, "tpl", true⟩], 0, []) :=
  (createControllerRevision_collision (fun d cc => d ++ "-" ++ toString cc)
    ⟨"", 4, 9, "tpl", true⟩ ⟨"tpl-0", 1, 1, "tpl", true⟩
    [⟨"tpl-0", 1, 1, "tpl", true⟩] 0 0 (by decide)).1 rfl

/-! ## PoolControl.UpdatePool (pool control part of the source, lines 419-450) -/

/-- Results of the remote calls `UpdatePool` makes: for the i-th attempt
(0-based) the outcome of the fresh `Client.Get`, of
`adapter.ApplyPoolTemplate`, and of the `Client.Update` persist; plus the
outcome of the adapter's `PostUpdate` hook. -/
structure UpdateCallResults where
  getErr : Nat → Option String
  applyErr : Nat → Option String
  updErr : Nat → Option String
  postUpdateErr : Option String

/-- Ghost trace of one `UpdatePool` run: the returned error (`none` =
success), whether the post-update hook ran, and the attempts on which a
Get, an ApplyPoolTemplate and an Update persist were performed. -/
structure UpdatePoolRun where
  result : Option String
  postUpdateRan : Bool
  reads : List Nat
  applies : List Nat
  persists : List Nat
deriving Repr, DecidableEq

/-- The retry loop of `UpdatePool`: each attempt re-reads the live object
(a Get failure returns immediately), re-applies the template (a failure
returns immediately), then persists; a successful persist breaks out of the
loop, after which `updateError == nil` and `PostUpdate` runs; a failed
persist overwrites `updateError` and the loop continues.  When the loop
exhausts its attempts with `updateError != nil`, that last error is
returned and the hook does not run. -/
def updatePoolGo (env : UpdateCallResults) : Nat → Nat → Option String → UpdatePoolRun
  | 0, _, updateError =>
    match updateError with
    | some e => ⟨some e, false, [], [], []⟩
    | none => ⟨env.postUpdateErr, true, [], [], []⟩
  | rem+1, i, _ =>
    match env.getErr i with
    | some e => ⟨some e, false, [i], [], []⟩
    | none =>
      match env.applyErr i with
      | some e => ⟨some e, false, [i], [i], []⟩
      | none =>
        match env.updErr i with
        | none => ⟨env.postUpdateErr, true, [i], [i], [i]⟩
        | some e =>
          let rest := updatePoolGo env rem (i+1) (some e)
          ⟨rest.result, rest.postUpdateRan, i :: rest.reads, i :: rest.applies,
           i :: rest.persists⟩

/-- `PoolControl.UpdatePool` with `updateRetries` attempts.  The constant
`updateRetries` is declared outside the provided sources; the spec calls it
a fixed small attempt count, so it is a parameter here. -/
def UpdatePool (env : UpdateCallResults) (updateRetries : Nat) : UpdatePoolRun :=
  updatePoolGo env updateRetries 0 none

/-- Claim C7 counterexample: two attempts whose persists fail with distinct
errors `e1` then `e2`; `updateError` is overwritten on every attempt, so
`UpdatePool` returns the last error `e2`, not the first error `e1`. -/
theorem updatePool_counterexample :
    (UpdatePool
      ⟨fun _ => none, fun _ => none,
       fun i => some (if i = 0 then "e1" else "e2"), none⟩ 2).result = some "e2" ∧
    some "e2" ≠ some "e1" := by
  refine ⟨by decide, by decide⟩

theorem cons_map_shift (i m : Nat) :
    i :: (List.range (m+1)).map (i + 1 + ·) = (List.range (m+2)).map (i + ·) := by
  rw [show List.range (m+2) = 0 :: (List.range (m+1)).map Nat.succ from
    List.range_succ_eq_map (m+1)]
  rw [List.map_cons, List.map_map]
  show i :: _ = (i + 0) :: _
  rw [Nat.add_zero]
  congr 1
  apply List.map_congr_left
  intro a _
  show i + 1 + a = i + (a + 1)
  omega

theorem updatePoolGo_first_success (env : UpdateCallResults) :
    ∀ (k rem i : Nat) (prev : Option String), k < rem →
      (∀ j, j ≤ k → env.getErr (i + j) = none ∧ env.applyErr (i + j) = none) →
      (∀ j, j < k → ∃ e, env.updErr (i + j) = some e) →
      env.updErr (i + k) = none →
      updatePoolGo env rem i prev
        = ⟨env.postUpdateErr, true, (List.range (k+1)).map (i + ·),
           (List.range (k+1)).map (i + ·), (List.range (k+1)).map (i + ·)⟩ := by
  intro k
  induction k with
  | zero =>
    intro rem i prev hk hga hupd hok
    obtain ⟨r, rfl⟩ : ∃ r, rem = r + 1 := ⟨rem - 1, by omega⟩
    have hg := (hga 0 (Nat.le_refl 0)).1
    have ha := (hga 0 (Nat.le_refl 0)).2
    rw [Nat.add_zero] at hg ha
    rw [Nat.add_zero] at hok
    simp only [updatePoolGo, hg, ha, hok]
    rfl
  | succ k ih =>
    intro rem i prev hk hga hupd hok
    obtain ⟨r, rfl⟩ : ∃ r, rem = r + 1 := ⟨rem - 1, by omega⟩
    have hg := (hga 0 (Nat.zero_le _)).1
    have ha := (hga 0 (Nat.zero_le _)).2
    rw [Nat.add_zero] at hg ha
    obtain ⟨e, he⟩ := hupd 0 (Nat.succ_pos _)
    rw [Nat.add_zero] at he
    have hrest := ih r (i+1) (some e) (by omega)
      (fun j hj => by
        have := hga (j+1) (by omega)
        rwa [show i + (j + 1) = i + 1 + j by omega] at this)
      (fun j hj => by
        have := hupd (j+1) (by omega)
        rwa [show i + (j + 1) = i + 1 + j by omega] at this)
      (by rwa [show i + (k + 1) = i + 1 + k by omega] at hok)
    simp only [updatePoolGo, hg, ha, he, hrest]
    rw [cons_map_shift]

theorem updatePoolGo_all_fail (env : UpdateCallResults) :
    ∀ (rem i : Nat) (prev : Option String), 1 ≤ rem →
      (∀ j, j < rem → env.getErr (i + j) = none ∧ env.applyErr (i + j) = none) →
      (∀ j, j < rem → ∃ e, env.updErr (i + j) = some e) →
      updatePoolGo env rem i prev
        = ⟨env.updErr (i + rem - 1), false, (List.range rem).map (i + ·),
           (List.range rem).map (i + ·), (List.range rem).map (i + ·)⟩ := by
  intro rem
  induction rem with
  | zero => intro i prev h; omega
  | succ rem ih =>
    intro i prev _ hga hupd
    have hg := (hga 0 (Nat.succ_pos _)).1
    have ha := (hga 0 (Nat.succ_pos _)).2
    rw [Nat.add_zero] at hg ha
    obtain ⟨e, he⟩ := hupd 0 (Nat.succ_pos _)
    rw [Nat.add_zero] at he
    by_cases hrem : rem = 0
    · subst hrem
      simp only [updatePoolGo, hg, ha, he]
      have h1 : (List.range (0+1)).map (i + ·) = [i] := by
        rw [show List.range (0+1) = [0] from by decide]
        simp
      rw [h1, show i + (0 + 1) - 1 = i by omega, he]
    · have hrest := ih (i+1) (some e) (by omega)
        (fun j hj => by
          have := hga (j+1) (by omega)
          rwa [show i + (j + 1) = i + 1 + j by omega] at this)
        (fun j hj => by
          have := hupd (j+1) (by omega)
          rwa [show i + (j + 1) = i + 1 + j by omega] at this)
      simp only [updatePoolGo, hg, ha, he, hrest]
      obtain ⟨m, rfl⟩ : ∃ m, rem = m + 1 := ⟨rem - 1, by omega⟩
      rw [cons_map_shift]
      have harith : i + 1 + (m + 1) - 1 = i + (m + 1 + 1) - 1 := by omega
      rw [harith]

/-- Claim C7 (amended: the all-fail case returns the error of the final
attempt, not the first): `UpdatePool` runs a bounded fixed-count retry loop;
up to and including the first attempt whose persist succeeds, every attempt
performs a fresh read and a fresh template application followed by a persist
and no attempt runs afterwards; after the successful persist the adapter's
post-update hook is invoked; and when every attempt's persist fails, the
hook does not run and `UpdatePool` returns the error of the final
attempt. -/
theorem updatePool_spec (env : UpdateCallResults) (retries : Nat) :
    (∀ k, k < retries →
        (∀ i, i ≤ k → env.getErr i = none ∧ env.applyErr i = none) →
        (∀ i, i < k → ∃ e, env.updErr i = some e) →
        env.updErr k = none →
        UpdatePool env retries
          = ⟨env.postUpdateErr, true, List.range (k+1), List.range (k+1),
             List.range (k+1)⟩) ∧
    (1 ≤ retries →
        (∀ i, i < retries → env.getErr i = none ∧ env.applyErr i = none) →
        (∀ i, i < retries → ∃ e, env.updErr i = some e) →
        UpdatePool env retries
          = ⟨env.updErr (retries - 1), false, List.range retries, List.range retries,
             List.range retries⟩) := by
  constructor
  · intro k hk hga hupd hok
    unfold UpdatePool
    rw [updatePoolGo_first_success env k retries 0 none hk
      (fun j hj => by simpa using hga j hj)
      (fun j hj => by simpa using hupd j hj)
      (by simpa using hok)]
    rw [map_zero_add_range]
  · intro hret hga hupd
    unfold UpdatePool
    rw [updatePoolGo_all_fail env retries 0 none hret
      (fun j hj => by simpa using hga j hj)
      (fun j hj => by simpa using hupd j hj)]
    rw [map_zero_add_range]
    rw [Nat.zero_add]

theorem updatePool_spec_witness :
    UpdatePool ⟨fun _ => none, fun _ => none,
        fun i => if i = 0 then some "conflict" else none, none⟩ 5
      = ⟨none, true, [0, 1], [0, 1], [0, 1]⟩ :=
  (updatePool_spec
    ⟨fun _ => none, fun _ => none,
     fun i => if i = 0 then some "conflict" else none, none⟩ 5).1 1 (by decide)
    (fun i _ => ⟨rfl, rfl⟩)
    (fun i hi => ⟨"conflict", by
      have hi0 : i = 0 := by omega
      subst hi0
      rfl⟩)
    rfl

/-! ## DeploymentAdapter.ApplyPoolTemplate (adapter part of the source, lines 78-165) -/

/-- A pod template: its labels and the rest of the pod spec kept opaque. -/
structure PodTemplate where
  labels : List (String × String)
  podSpecPayload : String
deriving DecidableEq, Repr

/-- The live Deployment fields `ApplyPoolTemplate` populates.  Label and
selector maps are association lists written in insertion order. -/
structure Deployment where
  namespaceName : String
  labels : List (String × String)
  annots : List (String × String)
  generateName : String
  ownerName : String
  selectorMatchLabels : List (String × String)
  replicas : Int
  strategyPayload : String
  template : PodTemplate
  revisionHistoryLimit : Nat
  minReadySeconds : Int
  paused : Bool
deriving DecidableEq, Repr

/-- `m[k] = v` on an association list: overwrite the existing entry for `k`
or append a new one. -/
def upsert (m : List (String × String)) (k v : String) : List (String × String) :=
  if m.any (fun p => p.1 == k) then m.map (fun p => if p.1 == k then (k, v) else p)
  else m ++ [(k, v)]

/-- Copy every entry of `kvs` into `m` (the Go `for k, v := range src`
loops). -/
def upsertAll (m : List (String × String)) (kvs : List (String × String)) :
    List (String × String) :=
  kvs.foldl (fun acc kv => upsert acc kv.1 kv.2) m

def ControllerRevisionHashLabelKey : String := "apps.openyurt.io/controller-revision-hash"

def PoolNameLabelKey : String := "apps.openyurt.io/pool-name"

/-- Modelled from the spec: the structured patch overlay applied by
`CreateNewPatchedObject`, which together with `PoolHasPatch` is not among
the provided sources.  Per §4.6 the patch is a partial document whose
"replace"-scoped sub-trees substitute the corresponding sub-trees of the
built object wholesale, whose label entries merge over the built labels, and
whose replica-count sub-document, when present, is authoritative. -/
structure StrategicPatch where
  replicas : Option Int
  template : Option PodTemplate
  labels : List (String × String)
deriving DecidableEq, Repr

/-- Modelled from the spec: strategic merge of the patch document over the
fully built live object (§4.6). -/
def CreateNewPatchedObject (p : StrategicPatch) (d : Deployment) : Deployment :=
  { d with
    replicas := p.replicas.getD d.replicas
    template := p.template.getD d.template
    labels := upsertAll d.labels p.labels }

/-- One pool of the topology as the adapter reads it: name, node placement
constraint and tolerations (opaque), replica count, optional patch. -/
structure PoolSpecCfg where
  name : String
  nodeConstraintPayload : String
  replicas : Int
  patch : Option StrategicPatch
deriving DecidableEq, Repr

/-- The Deployment workload template of the resource. -/
structure DeploymentTemplateCfg where
  labels : List (String × String)
  annots : List (String × String)
  strategyPayload : String
  template : PodTemplate
  minReadySeconds : Int
  paused : Bool
deriving DecidableEq, Repr

/-- The parts of the UnitedDeployment `ApplyPoolTemplate` consults. -/
structure UDForAdapter where
  name : String
  namespaceName : String
  selectorMatchLabels : List (String × String)
  deploymentTemplate : DeploymentTemplateCfg
  topologyPools : List PoolSpecCfg
  revisionHistoryLimit : Nat
deriving DecidableEq, Repr

/-- Modelled from the spec: `attachNodeAffinityAndTolerations` is not among
the provided sources; it stamps the pool's node placement constraint and
tolerations into the pod spec. -/
def attachNodeConstraint (tpl : PodTemplate) (pool : PoolSpecCfg) : PodTemplate :=
  { tpl with podSpecPayload := tpl.podSpecPayload ++ "|" ++ pool.nodeConstraintPayload }

/-- `DeploymentAdapter.ApplyPoolTemplate`: find the pool config by name
(error when absent); populate namespace, merged labels (template labels,
selector match-labels, revision-hash label, pool-name label), merged
annotations, the generated-name prefix `<name>-<pool>-`, the owner
reference, the selector with the injected pool-name label, the replica
count, the strategy and pod template (stamped with pool-name and
revision-hash labels and the node constraint), and the remaining scalar
fields; then, when the pool carries a patch, apply it as a structured
overlay over everything just set. -/
def ApplyPoolTemplate (ud : UDForAdapter) (poolName revision : String) (replicas : Int)
    (set : Deployment) : Except String Deployment :=
  match ud.topologyPools.find? (fun p => p.name == poolName) with
  | none => .error ("fail to find pool config " ++ poolName)
  | some poolConfig =>
    let tpl := ud.deploymentTemplate
    let builtTemplate := attachNodeConstraint
      { tpl.template with
        labels := upsert (upsert tpl.template.labels PoolNameLabelKey poolName)
          ControllerRevisionHashLabelKey revision } poolConfig
    let built : Deployment :=
      { namespaceName := ud.namespaceName
        labels := upsert (upsert (upsertAll (upsertAll set.labels tpl.labels)
            ud.selectorMatchLabels) ControllerRevisionHashLabelKey revision)
            PoolNameLabelKey poolName
        annots := upsertAll set.annots tpl.annots
        generateName := ud.name ++ "-" ++ poolName ++ "-"
        ownerName := ud.name
        selectorMatchLabels := upsert ud.selectorMatchLabels PoolNameLabelKey poolName
        replicas := replicas
        strategyPayload := tpl.strategyPayload
        template := builtTemplate
        revisionHistoryLimit := ud.revisionHistoryLimit
        minReadySeconds := tpl.minReadySeconds
        paused := tpl.paused }
    match poolConfig.patch with
    | none => .ok built
    | some p => .ok (CreateNewPatchedObject p built)

/-- Claim C8: for every pool carrying a patch, `ApplyPoolTemplate` applies
the patch as a structured overlay on top of the fields it just set, and the
patch's replica-count value, when present, takes precedence over the
replica-count argument (a pool with `replicas = 3` and a patch setting 5
ends up with 5 — see the witness); when the patch has no replica-count
sub-document the argument is kept. -/
theorem applyPoolTemplate_patch_precedence (ud : UDForAdapter)
    (poolName revision : String) (replicas : Int) (set : Deployment)
    (poolConfig : PoolSpecCfg) (p : StrategicPatch)
    (hfind : ud.topologyPools.find? (fun q => q.name == poolName) = some poolConfig)
    (hpatch : poolConfig.patch = some p) :
    ∃ d, ApplyPoolTemplate ud poolName revision replicas set = .ok d ∧
      d.replicas = p.replicas.getD replicas ∧
      (∀ r, p.replicas = some r → d.replicas = r) ∧
      (p.replicas = none → d.replicas = replicas) := by
  unfold ApplyPoolTemplate
  rw [hfind]
  simp only [hpatch]
  refine ⟨_, rfl, ?_, ?_, ?_⟩
  · rfl
  · intro r hr
    simp [CreateNewPatchedObject, hr]
  · intro hr
    simp [CreateNewPatchedObject, hr]

theorem applyPoolTemplate_patch_precedence_witness :
    ∃ d, ApplyPoolTemplate
        ⟨"ud", "ns", [("app", "demo")],
         ⟨[("tl", "v")], [], "strategy", ⟨[("pl", "v")], "podspec"⟩, 0, false⟩,
         [⟨"pool-a", "zone-a", 3, some ⟨some 5, none, []⟩⟩], 10⟩
        "pool-a" "rev-1" 3
        ⟨"", [], [], "", "", [], 0, "", ⟨[], ""⟩, 0, 0, false⟩ = .ok d ∧
      d.replicas = 5 := by
  obtain ⟨d, hd, _, hsome, _⟩ := applyPoolTemplate_patch_precedence
    ⟨"ud", "ns", [("app", "demo")],
     ⟨[("tl", "v")], [], "strategy", ⟨[("pl", "v")], "podspec"⟩, 0, false⟩,
     [⟨"pool-a", "zone-a", 3, some ⟨some 5, none, []⟩⟩], 10⟩
    "pool-a" "rev-1" 3
    ⟨"", [], [], "", "", [], 0, "", ⟨[], ""⟩, 0, 0, false⟩
    ⟨"pool-a", "zone-a", 3, some ⟨some 5, none, []⟩⟩ ⟨some 5, none, []⟩
    (by decide) rfl
  exact ⟨d, hd, hsome 5 rfl⟩

/-! ## Full revision reconciliation (constructUnitedDeploymentRevisions) -/

theorem charListLe_cons_iff (a b : Char) (as bs : List Char) :
    charListLe (a :: as) (b :: bs) = true ↔
      (a.toNat < b.toNat ∨ (a.toNat = b.toNat ∧ charListLe as bs = true)) := by
  simp only [charListLe]
  by_cases h1 : a.toNat < b.toNat
  · simp [h1]
  · by_cases h2 : b.toNat < a.toNat
    · rw [if_neg h1, if_pos h2]
      constructor
      · intro h; exact Bool.noConfusion h
      · rintro (h | ⟨heq, _⟩)
        · exact absurd h h1
        · omega
    · rw [if_neg h1, if_neg h2]
      constructor
      · intro h; exact Or.inr ⟨by omega, h⟩
      · rintro (h | ⟨_, h⟩)
        · exact absurd h h1
        · exact h

theorem charListLe_total : ∀ as bs : List Char,
    charListLe as bs = true ∨ charListLe bs as = true := by
  intro as
  induction as with
  | nil => intro bs; exact Or.inl rfl
  | cons a as ih =>
    intro bs
    cases bs with
    | nil => exact Or.inr rfl
    | cons b bs =>
      by_cases h1 : a.toNat < b.toNat
      · exact Or.inl ((charListLe_cons_iff a b as bs).mpr (Or.inl h1))
      · by_cases h2 : b.toNat < a.toNat
        · exact Or.inr ((charListLe_cons_iff b a bs as).mpr (Or.inl h2))
        · rcases ih bs with h | h
          · exact Or.inl ((charListLe_cons_iff a b as bs).mpr (Or.inr ⟨by omega, h⟩))
          · exact Or.inr ((charListLe_cons_iff b a bs as).mpr (Or.inr ⟨by omega, h⟩))

theorem charListLe_trans : ∀ as bs cs : List Char,
    charListLe as bs = true → charListLe bs cs = true → charListLe as cs = true := by
  intro as
  induction as with
  | nil => intro bs cs _ _; rfl
  | cons a as ih =>
    intro bs cs hab hbc
    cases bs with
    | nil => exact Bool.noConfusion hab
    | cons b bs =>
      cases cs with
      | nil => exact Bool.noConfusion hbc
      | cons c cs =>
        rcases (charListLe_cons_iff a b as bs).mp hab with h1 | ⟨h1, h1'⟩ <;>
          rcases (charListLe_cons_iff b c bs cs).mp hbc with h2 | ⟨h2, h2'⟩
        · exact (charListLe_cons_iff a c as cs).mpr (Or.inl (by omega))
        · exact (charListLe_cons_iff a c as cs).mpr (Or.inl (by omega))
        · exact (charListLe_cons_iff a c as cs).mpr (Or.inl (by omega))
        · exact (charListLe_cons_iff a c as cs).mpr
            (Or.inr ⟨by omega, ih bs cs h1' h2'⟩)

instance : IsTotal Revision revLE where
  total a b := by
    unfold revLE
    rcases lt_trichotomy a.revision b.revision with h | h | h
    · exact Or.inl (Or.inl h)
    · rcases lt_trichotomy a.creationTimestamp b.creationTimestamp with h2 | h2 | h2
      · exact Or.inl (Or.inr ⟨h, Or.inl h2⟩)
      · rcases charListLe_total a.name.data b.name.data with h3 | h3
        · exact Or.inl (Or.inr ⟨h, Or.inr ⟨h2, h3⟩⟩)
        · exact Or.inr (Or.inr ⟨h.symm, Or.inr ⟨h2.symm, h3⟩⟩)
      · exact Or.inr (Or.inr ⟨h.symm, Or.inl h2⟩)
    · exact Or.inr (Or.inl h)

instance : IsTrans Revision revLE where
  trans a b c hab hbc := by
    unfold revLE at hab hbc ⊢
    rcases hab with h1 | ⟨h1, h1'⟩ <;> rcases hbc with h2 | ⟨h2, h2'⟩
    · exact Or.inl (by omega)
    · exact Or.inl (by omega)
    · exact Or.inl (by omega)
    · refine Or.inr ⟨by omega, ?_⟩
      rcases h1' with t1 | ⟨t1, n1⟩ <;> rcases h2' with t2 | ⟨t2, n2⟩
      · exact Or.inl (by omega)
      · exact Or.inl (by omega)
      · exact Or.inl (by omega)
      · exact Or.inr ⟨by omega, charListLe_trans _ _ _ n1 n2⟩

/-- `history.SortControllerRevisions`. -/
def sortRevs (l : List Revision) : List Revision := List.insertionSort revLE l

theorem mem_sortRevs {x : Revision} {l : List Revision} : x ∈ sortRevs l ↔ x ∈ l :=
  List.mem_insertionSort revLE

theorem length_sortRevs (l : List Revision) : (sortRevs l).length = l.length :=
  (List.perm_insertionSort revLE l).length_eq

theorem sorted_sortRevs (l : List Revision) : List.Sorted revLE (sortRevs l) :=
  List.sorted_insertionSort revLE l

theorem getLast?_mem {α : Type} : ∀ {l : List α} {z : α}, l.getLast? = some z → z ∈ l := by
  intro l
  induction l with
  | nil => intro z h; exact Option.noConfusion h
  | cons a t ih =>
    intro z h
    cases t with
    | nil =>
      rw [List.getLast?_singleton] at h
      rw [Option.some.injEq] at h
      exact h ▸ List.mem_singleton_self a
    | cons b t2 =>
      rw [List.getLast?_cons_cons] at h
      exact List.mem_cons_of_mem a (ih h)

theorem getLast?_drop {α : Type} :
    ∀ (k : Nat) (l : List α), k < l.length → (l.drop k).getLast? = l.getLast? := by
  intro k
  induction k with
  | zero => intro l _; rfl
  | succ k ih =>
    intro l hk
    cases l with
    | nil => simp at hk
    | cons a t =>
      rw [List.drop_succ_cons]
      have hlen : k < t.length := by
        simp only [List.length_cons] at hk
        omega
      rw [ih t hlen]
      cases t with
      | nil => simp at hlen
      | cons b t2 => rw [List.getLast?_cons_cons]

theorem sorted_le_getLast {s : List Revision} {z : Revision}
    (hs : List.Sorted revLE s) (hz : s.getLast? = some z) :
    ∀ y ∈ s, y = z ∨ revLE y z := by
  induction s with
  | nil => intro y hy; exact absurd hy (List.not_mem_nil y)
  | cons a t ih =>
    intro y hy
    cases t with
    | nil =>
      rw [List.getLast?_singleton, Option.some.injEq] at hz
      rcases List.mem_singleton.mp hy with rfl
      exact Or.inl hz
    | cons b t2 =>
      rw [List.getLast?_cons_cons] at hz
      rcases List.mem_cons.mp hy with rfl | hyt
      · have hzmem : z ∈ b :: t2 := getLast?_mem hz
        exact Or.inr (List.rel_of_sorted_cons hs z hzmem)
      · exact ih (List.sorted_cons.mp hs).2 hz y hyt

theorem revLE_rev_le {a b : Revision} (h : revLE a b) : a.revision ≤ b.revision := by
  unfold revLE at h
  rcases h with h | ⟨h, _⟩ <;> omega

theorem sortRevs_getLast_of_strictMax {l : List Revision} {x : Revision}
    (hmem : x ∈ l) (hmax : ∀ y ∈ l, y ≠ x → y.revision < x.revision) :
    (sortRevs l).getLast? = some x := by
  have hx : x ∈ sortRevs l := mem_sortRevs.mpr hmem
  have hne : sortRevs l ≠ [] := by
    intro h
    rw [h] at hx
    exact absurd hx (List.not_mem_nil x)
  obtain ⟨z, hz⟩ : ∃ z, (sortRevs l).getLast? = some z :=
    ⟨(sortRevs l).getLast hne, List.getLast?_eq_getLast _ hne⟩
  by_cases hzx : z = x
  · rw [hz, hzx]
  · exfalso
    have hzl : z ∈ l := mem_sortRevs.mp (getLast?_mem hz)
    have hlt : z.revision < x.revision := hmax z hzl hzx
    rcases sorted_le_getLast (sorted_sortRevs l) hz x hx with rfl | hle
    · exact hzx rfl
    · have := revLE_rev_le hle
      omega

theorem find?_name_of_nodup : ∀ (l : List Revision) (u : Revision),
    (l.map (·.name)).Nodup → u ∈ l →
    l.find? (fun r => r.name == u.name) = some u := by
  intro l
  induction l with
  | nil => intro u _ hu; exact absurd hu (List.not_mem_nil u)
  | cons a t ih =>
    intro u hnodup hu
    rcases List.mem_cons.mp hu with rfl | hut
    · rw [List.find?_cons_of_pos _ (by simp)]
    · have hanot : a.name ∉ t.map (·.name) := (List.nodup_cons.mp hnodup).1
      have hane : (a.name == u.name) = false := by
        rw [beq_eq_false_iff_ne]
        intro heq
        exact hanot (heq ▸ List.mem_map.mpr ⟨u, hut, rfl⟩)
      rw [List.find?_cons_of_neg _ (by simp [hane])]
      exact ih u (List.nodup_cons.mp hnodup).2 hut

/-- The fields of the UnitedDeployment that revision reconciliation reads:
the serialized template fragment that becomes the revision content
(`getUnitedDeploymentPatch`), `Status.CurrentRevision`,
`Status.CollisionCount`, and `Spec.RevisionHistoryLimit`. -/
structure UDRev where
  templateData : String
  currentRevision : String
  collisionCount : Nat
  revisionHistoryLimit : Nat
deriving DecidableEq, Repr

/-- `nextRevision` (lines 276-282): one more than the largest sequence
number of the sorted history, or 1 when the history is empty. -/
def nextRevision (revisions : List Revision) : Int :=
  match revisions.getLast? with
  | none => 1
  | some l => l.revision + 1

/-- `Client.Update` on a revision object: replace the stored object of that
name. -/
def replaceByName (store : List Revision) (nm : String) (x : Revision) : List Revision :=
  store.map (fun r => if r.name == nm then x else r)

/-- Result of one `constructUnitedDeploymentRevisions` pass: the update
revision, the store afterwards, the collision count to be carried back to
status, and the names of revision objects created during the pass. -/
structure ReconcileOut where
  update : Revision
  store : List Revision
  collisionCount : Nat
  created : List String
deriving DecidableEq, Repr

/-- The sorted owned history (`controlledHistories` followed by
`history.SortControllerRevisions`). -/
def ownedSorted (store : List Revision) : List Revision :=
  sortRevs (store.filter (·.owned))

/-- The `cleanExpiredRevision` step of a pass: `(deleted, returned
history)`. -/
def reconcileCleanup (ud : UDRev) (store : List Revision) : List Revision × List Revision :=
  cleanExpiredRevision ud.revisionHistoryLimit ud.currentRevision (ownedSorted store)

/-- The backing store after the cleanup step's deletions. -/
def storeAfterCleanup (ud : UDRev) (store : List Revision) : List Revision :=
  let deletedNames := (reconcileCleanup ud store).1.map (·.name)
  store.filter (fun r => !(deletedNames.contains r.name))

/-- `constructUnitedDeploymentRevisions` (lines 87-168), with list/get/
create/update against the store always succeeding.  The owned history is
sorted and pruned; a candidate revision is built from the present template
with the next sequence number; `history.FindEqualRevisions` (modelled as
raw-content equality) looks for content-identical revisions: if the most
recent existing revision is content-identical the pass reuses it unchanged;
else if some earlier one is, its sequence number is bumped to the
candidate's and persisted (rollback); otherwise `createControllerRevision`
runs with the given fuel.  Returns `none` only when the collision-retry fuel
runs out (or, like the Go code would panic, if the equal list is non-empty
while the history is empty, which cannot happen). -/
def constructUnitedDeploymentRevisions (nameOf : String → Nat → String) (now : Nat)
    (fuel : Nat) (ud : UDRev) (store : List Revision) : Option ReconcileOut :=
  let cleaned := (reconcileCleanup ud store).2
  let store1 := storeAfterCleanup ud store
  let cand : Revision := ⟨"", nextRevision cleaned, now, ud.templateData, true⟩
  let equalRevisions := cleaned.filter (fun r => r.data == cand.data)
  match equalRevisions.getLast? with
  | some lastEq =>
    match cleaned.getLast? with
    | some lastRev =>
      if lastRev.data == lastEq.data then
        some ⟨lastRev, store1, ud.collisionCount, []⟩
      else
        some ⟨{ lastEq with revision := cand.revision },
          replaceByName store1 lastEq.name { lastEq with revision := cand.revision },
          ud.collisionCount, []⟩
    | none => none
  | none =>
    (createControllerRevision nameOf cand store1 ud.collisionCount fuel).map
      (fun out => ⟨out.1, out.2.1, out.2.2.1, out.2.2.2⟩)

theorem filter_data_getLast_some {cleaned : List Revision} {lastRev : Revision} {d : String}
    (hlast : cleaned.getLast? = some lastRev) (hdata : lastRev.data = d) :
    ∃ lastEq, (cleaned.filter (fun r => r.data == d)).getLast? = some lastEq ∧
      lastEq.data = d := by
  have hmemc : lastRev ∈ cleaned := getLast?_mem hlast
  have hmemEq : lastRev ∈ cleaned.filter (fun r => r.data == d) :=
    List.mem_filter.mpr ⟨hmemc, by simp [hdata]⟩
  cases hls : cleaned.filter (fun r => r.data == d) with
  | nil =>
    rw [hls] at hmemEq
    exact absurd hmemEq (List.not_mem_nil lastRev)
  | cons a t =>
    refine ⟨(a :: t).getLast (by simp), List.getLast?_eq_getLast _ (by simp), ?_⟩
    have hmem : (a :: t).getLast (by simp) ∈ cleaned.filter (fun r => r.data == d) := by
      rw [hls]
      exact List.getLast_mem _
    have := (List.mem_filter.mp hmem).2
    simpa using this

/-- Branch 1 of the dedup policy: when the post-prune history is non-empty
and its most recent entry is content-identical to the present template, the
pass reuses that entry unchanged as the update revision, creates nothing,
updates nothing, and leaves the collision count untouched. -/
theorem reconcile_reuse_last (nameOf : String → Nat → String) (now fuel : Nat)
    (ud : UDRev) (store : List Revision) (lastRev : Revision)
    (hlast : (reconcileCleanup ud store).2.getLast? = some lastRev)
    (hdata : lastRev.data = ud.templateData) :
    constructUnitedDeploymentRevisions nameOf now fuel ud store
      = some ⟨lastRev, storeAfterCleanup ud store, ud.collisionCount, []⟩ := by
  obtain ⟨lastEq, hlastEq, hEqdata⟩ := filter_data_getLast_some hlast hdata
  simp only [constructUnitedDeploymentRevisions]
  rw [hlastEq]
  dsimp only
  rw [hlast]
  dsimp only
  rw [if_pos (by simp [hdata, hEqdata])]

/-- Characterization of a successful `createControllerRevision` run: either
it hit a content-identical colliding object, which it returned unchanged
with the store untouched and nothing created, the returned name being the
hash name at the returned collision count; or it created the candidate
under a fresh hash name computed at the returned collision count and
appended it to the store. -/
theorem createControllerRevision_spec (nameOf : String → Nat → String) (cand : Revision)
    (store : List Revision) :
    ∀ (fuel cc : Nat) (ret : Revision) (st : List Revision) (ccR : Nat)
      (created : List String),
      createControllerRevision nameOf cand store cc fuel = some (ret, st, ccR, created) →
      (created = [] ∧ st = store ∧ ret ∈ store ∧ ret.data = cand.data ∧
        ret.name = nameOf cand.data ccR) ∨
      (created = [nameOf cand.data ccR] ∧
        ret = { cand with name := nameOf cand.data ccR } ∧
        st = store ++ [ret] ∧ (∀ r ∈ store, r.name ≠ nameOf cand.data ccR)) := by
  intro fuel
  induction fuel with
  | zero => intro cc ret st ccR created h; exact Option.noConfusion h
  | succ fuel ih =>
    intro cc ret st ccR created h
    simp only [createControllerRevision] at h
    cases hf : store.find? (fun r => r.name == nameOf cand.data cc) with
    | some ex =>
      rw [hf] at h
      dsimp only at h
      by_cases hd : (ex.data == cand.data)
      · rw [if_pos hd] at h
        simp only [Option.some.injEq, Prod.mk.injEq] at h
        obtain ⟨hret, hst, hcc, hcr⟩ := h
        subst hret hst hcc hcr
        refine Or.inl ⟨rfl, rfl, List.mem_of_find?_eq_some hf, by simpa using hd, ?_⟩
        have := List.find?_some hf
        simpa using this
      · rw [if_neg hd] at h
        exact ih (cc+1) ret st ccR created h
    | none =>
      rw [hf] at h
      dsimp only at h
      simp only [Option.some.injEq, Prod.mk.injEq] at h
      obtain ⟨hret, hst, hcc, hcr⟩ := h
      subst hret hst hcc hcr
      refine Or.inr ⟨rfl, rfl, rfl, ?_⟩
      intro r hr
      have := List.find?_eq_none.mp hf r hr
      simpa using this

theorem map_name_replaceByName (store : List Revision) (nm : String) (x : Revision)
    (hx : x.name = nm) :
    (replaceByName store nm x).map (·.name) = store.map (·.name) := by
  unfold replaceByName
  rw [List.map_map]
  apply List.map_congr_left
  intro r _
  show (if (r.name == nm) then x else r).name = r.name
  by_cases h : (r.name == nm)
  · rw [if_pos h, hx]
    exact (beq_iff_eq.mp h).symm
  · rw [if_neg h]

theorem length_filter_owned_replaceByName (store : List Revision) (nm : String)
    (x : Revision) (hsame : ∀ r ∈ store, r.name = nm → r.owned = x.owned) :
    ((replaceByName store nm x).filter (·.owned)).length
      = (store.filter (·.owned)).length := by
  unfold replaceByName
  rw [← List.countP_eq_length_filter, ← List.countP_eq_length_filter, List.countP_map]
  apply List.countP_congr
  intro r hr
  show ((fun q : Revision => q.owned) (if (r.name == nm) then x else r)) = true
    ↔ r.owned = true
  by_cases h : (r.name == nm)
  · rw [if_pos h]
    show x.owned = true ↔ r.owned = true
    rw [hsame r hr (beq_iff_eq.mp h)]
  · rw [if_neg h]

/-- What survives a pass well enough to be reused by the next one, case A:
the update revision is the greatest element of the sorted owned history of
the resulting store and carries the template content; the owned count
exceeds the limit by at most one (the one possibly created revision). -/
def ReusableTop (limit : Nat) (d : String) (u : Revision) (store : List Revision) : Prop :=
  u.data = d ∧ (ownedSorted store).getLast? = some u ∧
  (store.filter (·.owned)).length ≤ limit + 1

/-- Case B (a collision with a content-identical non-owned object was
returned): the update revision sits in the store under the hash name of the
returned collision count, no owned revision carries the template content,
and the owned count is within the limit. -/
def ReusableByName (limit cc : Nat) (nameOf : String → Nat → String) (d : String)
    (u : Revision) (store : List Revision) : Prop :=
  u.data = d ∧ u ∈ store ∧ u.name = nameOf d cc ∧
  (∀ r ∈ store, r.owned = true → r.data ≠ d) ∧
  (store.filter (·.owned)).length ≤ limit

/-- After any successful pass that started with distinct names and an owned
history within the retention limit, the resulting store still has distinct
names, the update revision carries the template content, and the state is
reusable (case A or case B). -/
theorem reconcile_post (nameOf : String → Nat → String) (now fuel : Nat) (ud : UDRev)
    (store : List Revision) (r1 : ReconcileOut)
    (hnodup : (store.map (·.name)).Nodup)
    (hcount : (store.filter (·.owned)).length ≤ ud.revisionHistoryLimit)
    (hrun : constructUnitedDeploymentRevisions nameOf now fuel ud store = some r1) :
    (r1.store.map (·.name)).Nodup ∧
    (ReusableTop ud.revisionHistoryLimit ud.templateData r1.update r1.store ∨
     ReusableByName ud.revisionHistoryLimit r1.collisionCount nameOf ud.templateData
       r1.update r1.store) := by
  have hlenOS : (ownedSorted store).length = (store.filter (·.owned)).length :=
    length_sortRevs _
  have hnop : reconcileCleanup ud store = ([], ownedSorted store) := by
    unfold reconcileCleanup cleanExpiredRevision
    rw [if_pos (by omega)]
  have hstore1 : storeAfterCleanup ud store = store := by
    simp only [storeAfterCleanup, hnop, List.map_nil]
    exact List.filter_eq_self.mpr (fun a _ => rfl)
  simp only [constructUnitedDeploymentRevisions, hnop, hstore1] at hrun
  cases hEq : ((ownedSorted store).filter
      (fun r => r.data == ud.templateData)).getLast? with
  | some lastEq =>
    have hEqmem : lastEq ∈ (ownedSorted store).filter
        (fun r => r.data == ud.templateData) := getLast?_mem hEq
    have hEqS : lastEq ∈ ownedSorted store := (List.mem_filter.mp hEqmem).1
    have hEqdata : lastEq.data = ud.templateData := by
      have := (List.mem_filter.mp hEqmem).2
      simpa using this
    have hEqowned : lastEq ∈ store.filter (·.owned) := mem_sortRevs.mp hEqS
    have hEqstore : lastEq ∈ store := (List.mem_filter.mp hEqowned).1
    have hEqownedT : lastEq.owned = true := (List.mem_filter.mp hEqowned).2
    rw [hEq] at hrun
    cases hLast : (ownedSorted store).getLast? with
    | none =>
      exfalso
      have : ownedSorted store = [] := List.getLast?_eq_none_iff.mp hLast
      rw [this] at hEqS
      exact absurd hEqS (List.not_mem_nil lastEq)
    | some lastRev =>
      rw [hLast] at hrun
      dsimp only at hrun
      by_cases hd : (lastRev.data == lastEq.data)
      · -- branch 1: reuse the most recent revision unchanged
        rw [if_pos hd] at hrun
        rw [Option.some.injEq] at hrun
        subst hrun
        refine ⟨hnodup, Or.inl ⟨?_, hLast, by dsimp only; omega⟩⟩
        have := beq_iff_eq.mp hd
        rw [this, hEqdata]
      · -- branch 2: rollback by bumping the equal revision's sequence
        rw [if_neg hd] at hrun
        rw [Option.some.injEq] at hrun
        subst hrun
        dsimp only
        set bumped : Revision :=
          { lastEq with revision := nextRevision (ownedSorted store) } with hbumped
        have hbname : bumped.name = lastEq.name := rfl
        have hbowned : bumped.owned = true := hEqownedT
        have hbdata : bumped.data = ud.templateData := hEqdata
        have hnodup2 : ((replaceByName store lastEq.name bumped).map (·.name)).Nodup := by
          rw [map_name_replaceByName store lastEq.name bumped hbname]
          exact hnodup
        refine ⟨hnodup2, Or.inl ⟨hbdata, ?_, ?_⟩⟩
        · -- bumped is the strict maximum of the owned part of the new store
          apply sortRevs_getLast_of_strictMax
          · apply List.mem_filter.mpr
            refine ⟨?_, hbowned⟩
            unfold replaceByName
            exact List.mem_map.mpr ⟨lastEq, hEqstore, by rw [if_pos (by simp)]⟩
          · intro y hy hyne
            have hy1 : y ∈ replaceByName store lastEq.name bumped :=
              (List.mem_filter.mp hy).1
            have hy2 : y.owned = true := (List.mem_filter.mp hy).2
            unfold replaceByName at hy1
            obtain ⟨r, hr, hry⟩ := List.mem_map.mp hy1
            by_cases hcase : (r.name == lastEq.name)
            · rw [if_pos hcase] at hry
              exact absurd hry.symm hyne
            · rw [if_neg hcase] at hry
              subst hry
              have hys : r ∈ ownedSorted store :=
                mem_sortRevs.mpr (List.mem_filter.mpr ⟨hr, hy2⟩)
              have hrev : r.revision ≤ lastRev.revision := by
                rcases sorted_le_getLast (sorted_sortRevs _) hLast r hys with rfl | hle
                · exact le_refl _
                · exact revLE_rev_le hle
              have hnext : bumped.revision = lastRev.revision + 1 := by
                rw [hbumped]
                show nextRevision (ownedSorted store) = lastRev.revision + 1
                unfold nextRevision
                rw [hLast]
              omega
        · -- owned count unchanged
          rw [length_filter_owned_replaceByName store lastEq.name bumped ?_]
          · omega
          · intro r hr hrname
            have : r = lastEq :=
              List.inj_on_of_nodup_map hnodup hr hEqstore (by rw [hrname])
            rw [this]
  | none =>
    -- branch 3: no content-identical owned revision; create (or hit a collision)
    have hEqnil : (ownedSorted store).filter (fun r => r.data == ud.templateData) = [] :=
      List.getLast?_eq_none_iff.mp hEq
    have hNoOwned : ∀ r ∈ store, r.owned = true → r.data ≠ ud.templateData := by
      intro r hr hro
      have hrs : r ∈ ownedSorted store :=
        mem_sortRevs.mpr (List.mem_filter.mpr ⟨hr, hro⟩)
      have := List.filter_eq_nil_iff.mp hEqnil r hrs
      simpa using this
    rw [hEq] at hrun
    dsimp only at hrun
    rw [Option.map_eq_some'] at hrun
    obtain ⟨out, hccr, hout⟩ := hrun
    obtain ⟨ret, st, ccR, created⟩ := out
    have hr1 : r1 = ⟨ret, st, ccR, created⟩ := hout.symm
    subst hr1
    dsimp only
    rcases createControllerRevision_spec nameOf _ store fuel ud.collisionCount
        ret st ccR created hccr with
      ⟨_, hst, hmem, hdata, hname⟩ | ⟨_, hret, hst, hfresh⟩
    · -- collision with an identical object: nothing changed
      subst hst
      refine ⟨hnodup, Or.inr ⟨by simpa using hdata, hmem, by simpa using hname,
        hNoOwned, hcount⟩⟩
    · -- a fresh revision was created and appended
      have hretdata : ret.data = ud.templateData := by rw [hret]
      have hretowned : ret.owned = true := by rw [hret]
      have hretname : ret.name = nameOf ud.templateData ccR := by rw [hret]
      subst hst
      constructor
      · -- names still distinct: the created name was fresh
        rw [List.map_append]
        apply List.nodup_append.mpr
        refine ⟨hnodup, by simp, ?_⟩
        intro n hn hn2
        simp only [List.map_cons, List.map_nil, List.mem_singleton] at hn2
        obtain ⟨r, hr, hrn⟩ := List.mem_map.mp hn
        rw [hn2, hretname] at hrn
        exact hfresh r hr (by simpa using hrn)
      · refine Or.inl ⟨hretdata, ?_, ?_⟩
        · apply sortRevs_getLast_of_strictMax
          · apply List.mem_filter.mpr
            exact ⟨List.mem_append.mpr (Or.inr (List.mem_singleton_self ret)), hretowned⟩
          · intro y hy hyne
            have hy1 := (List.mem_filter.mp hy).1
            have hy2 := (List.mem_filter.mp hy).2
            rcases List.mem_append.mp hy1 with hys | hyr
            · have hyS : y ∈ ownedSorted store :=
                mem_sortRevs.mpr (List.mem_filter.mpr ⟨hys, hy2⟩)
              cases hsl : (ownedSorted store).getLast? with
              | none =>
                exfalso
                have : ownedSorted store = [] := List.getLast?_eq_none_iff.mp hsl
                rw [this] at hyS
                exact absurd hyS (List.not_mem_nil y)
              | some lastRev =>
                have hrev : y.revision ≤ lastRev.revision := by
                  rcases sorted_le_getLast (sorted_sortRevs _) hsl y hyS with rfl | hle
                  · exact le_refl _
                  · exact revLE_rev_le hle
                have hnext : ret.revision = lastRev.revision + 1 := by
                  rw [hret]
                  show nextRevision (ownedSorted store) = lastRev.revision + 1
                  unfold nextRevision
                  rw [hsl]
                omega
            · exact absurd (List.mem_singleton.mp hyr) hyne
        · rw [List.filter_append, List.length_append]
          have : ([ret].filter (·.owned)).length = 1 := by
            rw [List.filter_cons_of_pos (by simp [hretowned])]
            rfl
          omega

/-- Second pass, case A: when the update revision of the previous pass is
the greatest element of the sorted owned history, the pruning of the new
pass (which deletes at most the over-budget oldest entries) cannot remove
the greatest element, so the pass reuses it unchanged. -/
theorem reconcile_pass2_top (nameOf : String → Nat → String) (now fuel : Nat)
    (ud : UDRev) (store : List Revision) (u : Revision)
    (hdata : u.data = ud.templateData)
    (hlastu : (ownedSorted store).getLast? = some u)
    (hlim : 1 ≤ ud.revisionHistoryLimit) :
    constructUnitedDeploymentRevisions nameOf now fuel ud store
      = some ⟨u, storeAfterCleanup ud store, ud.collisionCount, []⟩ := by
  apply reconcile_reuse_last nameOf now fuel ud store u ?_ hdata
  unfold reconcileCleanup cleanExpiredRevision
  by_cases hle : (ownedSorted store).length ≤ ud.revisionHistoryLimit
  · rw [if_pos hle]
    exact hlastu
  · rw [if_neg hle]
    dsimp only
    rw [getLast?_drop _ _ (by omega)]
    exact hlastu

/-- Second pass, case B: when no owned revision carries the template content
but the store holds a content-identical object under the hash name of the
carried-over collision count, the create branch immediately collides with it
and returns it unchanged: nothing is created and the store does not
change. -/
theorem reconcile_pass2_byname (nameOf : String → Nat → String) (now fuel : Nat)
    (ud : UDRev) (store : List Revision) (u : Revision)
    (hdata : u.data = ud.templateData)
    (hmem : u ∈ store)
    (hname : u.name = nameOf ud.templateData ud.collisionCount)
    (hno : ∀ r ∈ store, r.owned = true → r.data ≠ ud.templateData)
    (hcount : (store.filter (·.owned)).length ≤ ud.revisionHistoryLimit)
    (hnodup : (store.map (·.name)).Nodup)
    (hfuel : 1 ≤ fuel) :
    constructUnitedDeploymentRevisions nameOf now fuel ud store
      = some ⟨u, store, ud.collisionCount, []⟩ := by
  have hlenOS : (ownedSorted store).length = (store.filter (·.owned)).length :=
    length_sortRevs _
  have hnop : reconcileCleanup ud store = ([], ownedSorted store) := by
    unfold reconcileCleanup cleanExpiredRevision
    rw [if_pos (by omega)]
  have hstore1 : storeAfterCleanup ud store = store := by
    simp only [storeAfterCleanup, hnop, List.map_nil]
    exact List.filter_eq_self.mpr (fun a _ => rfl)
  have hEqnil : (ownedSorted store).filter (fun r => r.data == ud.templateData) = [] := by
    apply List.filter_eq_nil_iff.mpr
    intro r hr
    have hrs : r ∈ store.filter (·.owned) := mem_sortRevs.mp hr
    have h1 := (List.mem_filter.mp hrs).1
    have h2 := (List.mem_filter.mp hrs).2
    simp only [beq_iff_eq]
    exact hno r h1 h2
  obtain ⟨f2, rfl⟩ : ∃ f2, fuel = f2 + 1 := ⟨fuel - 1, by omega⟩
  simp only [constructUnitedDeploymentRevisions, hnop, hstore1]
  rw [hEqnil]
  simp only [createControllerRevision]
  have hfind : store.find? (fun r => r.name == nameOf ud.templateData ud.collisionCount)
      = some u := by
    have := find?_name_of_nodup store u hnodup hmem
    rwa [hname] at this
  rw [hfind]
  dsimp only
  rw [if_pos (by simp [hdata])]
  rfl

/-- Claim C3: revision reconciliation is idempotent.  First conjunct: when
the candidate built from the present template is content-identical to the
most recent existing (post-prune) revision, that revision is reused
unchanged as the update revision — nothing is created or updated and the
collision count is untouched.  Second conjunct: reconciling the same spec
twice in a row (carrying the returned collision count and current-revision
name into status, as the controller does), starting from a store with
distinct names whose owned history is within the retention limit (≥ 1),
creates zero new revision objects the second time and returns the same
update revision both times. -/
theorem revision_reconcile_idempotent :
    (∀ (nameOf : String → Nat → String) (now fuel : Nat) (ud : UDRev)
        (store : List Revision) (lastRev : Revision),
        (reconcileCleanup ud store).2.getLast? = some lastRev →
        lastRev.data = ud.templateData →
        constructUnitedDeploymentRevisions nameOf now fuel ud store
          = some ⟨lastRev, storeAfterCleanup ud store, ud.collisionCount, []⟩) ∧
    (∀ (nameOf : String → Nat → String) (now now2 fuel fuel2 : Nat) (ud : UDRev)
        (store : List Revision) (r1 : ReconcileOut),
        (store.map (·.name)).Nodup →
        (store.filter (·.owned)).length ≤ ud.revisionHistoryLimit →
        1 ≤ ud.revisionHistoryLimit →
        1 ≤ fuel2 →
        constructUnitedDeploymentRevisions nameOf now fuel ud store = some r1 →
        ∃ st2, constructUnitedDeploymentRevisions nameOf now2 fuel2
            { ud with collisionCount := r1.collisionCount,
                      currentRevision := r1.update.name } r1.store
          = some ⟨r1.update, st2, r1.collisionCount, []⟩) := by
  constructor
  · intro nameOf now fuel ud store lastRev hlast hdata
    exact reconcile_reuse_last nameOf now fuel ud store lastRev hlast hdata
  · intro nameOf now now2 fuel fuel2 ud store r1 hnodup hcount hlim hfuel2 hrun
    obtain ⟨hnodup2, hgood⟩ :=
      reconcile_post nameOf now fuel ud store r1 hnodup hcount hrun
    set ud2 : UDRev := { ud with collisionCount := r1.collisionCount,
                                 currentRevision := r1.update.name } with hud2
    rcases hgood with ⟨hdata, hlastu, _⟩ | ⟨hdata, hmem, hname, hno, hcnt⟩
    · exact ⟨storeAfterCleanup ud2 r1.store,
        reconcile_pass2_top nameOf now2 fuel2 ud2 r1.store r1.update hdata hlastu hlim⟩
    · exact ⟨r1.store,
        reconcile_pass2_byname nameOf now2 fuel2 ud2 r1.store r1.update hdata hmem
          hname hno hcnt hnodup2 hfuel2⟩

theorem revision_reconcile_idempotent_witness :
    constructUnitedDeploymentRevisions (fun d cc => d ++ "-" ++ toString cc) 7 3
      ⟨"tpl", "r1", 0, 10⟩ [⟨"r1", 1, 5, "tpl", true⟩]
      = some ⟨⟨"r1", 1, 5, "tpl", true⟩, [⟨"r1", 1, 5, "tpl", true⟩], 0, []⟩ := by
  have h := revision_reconcile_idempotent.1 (fun d cc => d ++ "-" ++ toString cc) 7 3
    ⟨"tpl", "r1", 0, 10⟩ [⟨"r1", 1, 5, "tpl", true⟩] ⟨"r1", 1, 5, "tpl", true⟩
    (by decide) rfl
  rw [h]
  decide
